import Mathlib

/-!
Verification of the game-playing agent in `game_agent.py` / `heuristics.py`.

The game board (`isolation.Board`) is an external collaborator; following the
specification it is embedded as an abstract capability `GameModel` over an
arbitrary state type `σ`.  Scores are floats in the source, taking the values
`float("-inf")`, `float("inf")` and finite rationals; they are embedded as
`Score := WithBot (WithTop ℚ)` with `⊥` for `-inf` and `⊤` for `+inf`.
-/

set_option maxHeartbeats 1000000

abbrev Player : Type := ℕ

abbrev Move : Type := ℤ × ℤ

/-- The no-move sentinel `(-1, -1)` of the source. -/
def noMove : Move := (-1, -1)

abbrev Score : Type := WithBot (WithTop ℚ)

/-- A finite float value, e.g. the value of `float(len(a) - len(b))`. -/
def finScore (q : ℚ) : Score := ((q : WithTop ℚ) : Score)

/-- Abstract interface of the external board collaborator (`isolation.Board`):
`get_legal_moves`, `forecast_move`, `is_loser`, `is_winner`, `get_opponent`,
`get_player_location`, `get_blank_spaces`, `width`, `height`, `move_count`.
The state type `σ` is abstract; all capabilities are pure functions of it. -/
structure GameModel (σ : Type) where
  active : σ → Player
  legalMovesOf : σ → Player → List Move
  forecast : σ → Move → σ
  isLoser : σ → Player → Bool
  isWinner : σ → Player → Bool
  opponent : σ → Player → Player
  location : σ → Player → ℤ × ℤ
  blanks : σ → List (ℤ × ℤ)
  width : σ → ℕ
  height : σ → ℕ
  moveCount : σ → ℕ

/-- The zero-argument `game.get_legal_moves()`: legal moves of the active player. -/
def GameModel.legalMoves {σ : Type} (M : GameModel σ) (s : σ) : List Move :=
  M.legalMovesOf s (M.active s)

/-! ### The selection loops of the source

`minimax` ends with `max = 0; for i in range(len(scores)): if scores[i] > scores[max]: max = i`
(and dually with `<` for the minimizing branch); `alphabeta` uses `>=` in its
maximizing branch and `<` in its minimizing branch.  Each loop is embedded as a
structural recursion over the unscanned tail `rest`, carrying the index `i` of
the head of `rest`, the current best index `best` and its score `bv`. -/

/-- Scan with strict `>`: keeps the first index attaining the maximum. -/
def loopMaxAux : List Score → ℕ → ℕ → Score → ℕ
  | [], _, best, _ => best
  | x :: rest, i, best, bv =>
    if bv < x then loopMaxAux rest (i + 1) i x else loopMaxAux rest (i + 1) best bv

/-- Index selected by `for i in range(len(l)): if l[i] > l[max]: max = i` (start `max = 0`). -/
def loopMax : List Score → ℕ
  | [] => 0
  | x :: rest => loopMaxAux rest 1 0 x

/-- Scan with `>=`: keeps the last index attaining the maximum. -/
def loopMaxGEAux : List Score → ℕ → ℕ → Score → ℕ
  | [], _, best, _ => best
  | x :: rest, i, best, bv =>
    if bv ≤ x then loopMaxGEAux rest (i + 1) i x else loopMaxGEAux rest (i + 1) best bv

/-- Index selected by `for i in range(len(l)): if l[i] >= l[max]: max = i`. -/
def loopMaxGE : List Score → ℕ
  | [] => 0
  | x :: rest => loopMaxGEAux rest 1 0 x

/-- Scan with strict `<`: keeps the first index attaining the minimum. -/
def loopMinAux : List Score → ℕ → ℕ → Score → ℕ
  | [], _, best, _ => best
  | x :: rest, i, best, bv =>
    if x < bv then loopMinAux rest (i + 1) i x else loopMinAux rest (i + 1) best bv

/-- Index selected by `for i in range(len(l)): if l[i] < l[min]: min = i`. -/
def loopMin : List Score → ℕ
  | [] => 0
  | x :: rest => loopMinAux rest 1 0 x

/-- The final `return scores[k], queue[k]` of `minimax`; Python raises
IndexError when `k` is out of range (which happens exactly when `scores` is
empty), embedded as `none`. -/
def selectPair (b : Bool) (scores : List Score) (queue : List Move) : Option (Score × Move) :=
  let k := if b then loopMax scores else loopMin scores
  (scores[k]?).bind fun sc => (queue[k]?).map fun mv => (sc, mv)

variable {σ : Type}

/-- Embedding of `CustomPlayer.minimax` (clock check modeled separately in
`minimaxC`).  Source structure: compute `queue = game.get_legal_moves()`;
if empty return `(-inf, (-1,-1))` when maximizing else `(+inf, (-1,-1))`;
if `depth == 1` score every forecast state with the evaluator; if `depth > 1`
recurse on every forecast state with depth-1 and flipped role; finally select
by the strict-comparison loops.  At `depth == 0` with a non-empty queue the
score list stays empty and `scores[max]` raises IndexError, embedded as `none`.
The child move list `game_queue` collected by the source is dead code and is
omitted.  The evaluator argument `ev` stands for `self.score(·, self)`. -/
def minimaxP (M : GameModel σ) (ev : σ → Score) : ℕ → σ → Bool → Option (Score × Move)
  | 0, s, b =>
    let queue := M.legalMoves s
    if queue.isEmpty then
      some (if b then ((⊥ : Score), noMove) else ((⊤ : Score), noMove))
    else none
  | 1, s, b =>
    let queue := M.legalMoves s
    if queue.isEmpty then
      some (if b then ((⊥ : Score), noMove) else ((⊤ : Score), noMove))
    else
      selectPair b (queue.map fun m => ev (M.forecast s m)) queue
  | d + 2, s, b =>
    let queue := M.legalMoves s
    if queue.isEmpty then
      some (if b then ((⊥ : Score), noMove) else ((⊤ : Score), noMove))
    else
      (queue.mapM fun m => minimaxP M ev (d + 1) (M.forecast s m) !b).bind fun rs =>
        selectPair b (rs.map Prod.fst) queue

/-- Result of `alphabeta` on an empty move list. -/
def emptyRes (b : Bool) : Score × Option Move :=
  if b then ((⊥ : Score), some noMove) else ((⊤ : Score), some noMove)

/-- The maximizing move loop of `alphabeta`: for each move compute the child
score with the running `new_alpha`; on `score[0] >= beta` return immediately
with that move (beta cutoff); otherwise update `new_alpha` and append the
score.  On exhaustion select with the `>=` loop; `queue` is the full move list
indexed by the selection (the `getD` defaults are never used there because the
selected index is in range whenever `scores` is non-empty). -/
def abMaxLoop (child : Move → Score → Score) (beta : Score) (queue : List Move) :
    List Move → Score → List Score → Score × Option Move
  | [], _, scores =>
    let k := loopMaxGE scores
    (scores.getD k ⊥, some (queue.getD k noMove))
  | m :: rest, a, scores =>
    let sc := child m a
    if beta ≤ sc then (sc, some m)
    else abMaxLoop child beta queue rest (if a < sc then sc else a) (scores ++ [sc])

/-- The minimizing move loop of `alphabeta`: cutoff on `score[0] <= alpha`,
thread `new_beta`, select with the strict `<` loop on exhaustion. -/
def abMinLoop (child : Move → Score → Score) (alpha : Score) (queue : List Move) :
    List Move → Score → List Score → Score × Option Move
  | [], _, scores =>
    let k := loopMin scores
    (scores.getD k ⊥, some (queue.getD k noMove))
  | m :: rest, nb, scores =>
    let sc := child m nb
    if sc ≤ alpha then (sc, some m)
    else abMinLoop child alpha queue rest (if sc < nb then sc else nb) (scores ++ [sc])

/-- Embedding of `CustomPlayer.alphabeta` (clock check modeled separately in
`alphabetaC`).  Source structure: compute the move list; if empty return
`(-inf, (-1,-1))` / `(+inf, (-1,-1))` by role; at `depth == 0` the source
executes `return self.score(game, self),` producing a ONE-tuple whose move
slot is absent, embedded as `(ev s, none)`; otherwise run the pruning loops,
threading `new_alpha` (maximizing, `beta` fixed) or `new_beta` (minimizing,
`alpha` fixed) and flipping the role on recursion. -/
def alphabetaP (M : GameModel σ) (ev : σ → Score) :
    ℕ → σ → Score → Score → Bool → Score × Option Move
  | 0, s, _, _, b =>
    let queue := M.legalMoves s
    if queue.isEmpty then emptyRes b else (ev s, none)
  | d + 1, s, alpha, beta, b =>
    let queue := M.legalMoves s
    if queue.isEmpty then emptyRes b
    else if b then
      abMaxLoop (fun m a => (alphabetaP M ev d (M.forecast s m) a beta false).1)
        beta queue queue alpha []
    else
      abMinLoop (fun m nb => (alphabetaP M ev d (M.forecast s m) alpha nb true).1)
        alpha queue queue beta []

/-- Greatest element of a score list (`⊥` on the empty list). -/
def listMax (l : List Score) : Score := l.foldr max ⊥

/-- Least element of a score list (`⊤` on the empty list). -/
def listMin (l : List Score) : Score := l.foldr min ⊤

/-- The game-tree value under alpha-beta's depth convention: empty move list
gives `⊥`/`⊤` by role, depth 0 gives the evaluator's score on the current
state, a deeper node takes max/min of the child values one ply down. -/
def val (M : GameModel σ) (ev : σ → Score) : ℕ → σ → Bool → Score
  | 0, s, b =>
    if (M.legalMoves s).isEmpty then (if b then ⊥ else ⊤) else ev s
  | d + 1, s, b =>
    if (M.legalMoves s).isEmpty then (if b then ⊥ else ⊤)
    else
      let cs := (M.legalMoves s).map fun m => val M ev d (M.forecast s m) !b
      if b then listMax cs else listMin cs

/-! ### A concrete board model used for counterexamples and witnesses

States are natural numbers; state `0` is the root with two moves leading to
states `1` and `3`; state `1` has one move to `4`; state `3` has moves to `6`
and `8`; every other pair goes to `s + 1`.  Every transition flips parity, so
the active player at even states is player `0` and at odd states player `1`.
Every state has at least one legal move. -/

def legalC : ℕ → List Move
  | 0 => [(0, 0), (0, 1)]
  | 1 => [(1, 0)]
  | 3 => [(1, 0), (1, 1)]
  | _ => [(1, 0)]

def forecastC (s : ℕ) (m : Move) : ℕ :=
  if s = 0 ∧ m = (0, 0) then 1
  else if s = 0 ∧ m = (0, 1) then 3
  else if s = 1 ∧ m = (1, 0) then 4
  else if s = 3 ∧ m = (1, 0) then 6
  else if s = 3 ∧ m = (1, 1) then 8
  else s + 1

def CexM : GameModel ℕ where
  active s := s % 2
  legalMovesOf s _ := legalC s
  forecast := forecastC
  isLoser _ _ := false
  isWinner _ _ := false
  opponent _ p := 1 - p
  location _ _ := (0, 0)
  blanks _ := []
  width _ := 7
  height _ := 7
  moveCount _ := 5

/-- Leaf scores of the counterexample: states `4` and `6` score `5`, state `8`
scores `3`, everything else `0`. -/
def evC : ℕ → Score
  | 4 => finScore 5
  | 6 => finScore 5
  | 8 => finScore 3
  | _ => finScore 0


/-! ### Facts about `listMax`, `listMin` and the selection loops -/

theorem listMax_nil : listMax [] = ⊥ := rfl

theorem listMax_cons (x : Score) (l : List Score) : listMax (x :: l) = max x (listMax l) := rfl

theorem le_listMax {x : Score} {l : List Score} (hx : x ∈ l) : x ≤ listMax l := by
  induction l with
  | nil => cases hx
  | cons y t ih =>
    rcases List.mem_cons.mp hx with h | h
    · subst h; exact le_max_left _ _
    · exact le_trans (ih h) (le_max_right _ _)

theorem listMax_le {l : List Score} {c : Score} (h : ∀ x ∈ l, x ≤ c) : listMax l ≤ c := by
  induction l with
  | nil => exact bot_le
  | cons y t ih =>
    exact max_le (h y (List.mem_cons_self y t)) (ih fun x hx => h x (List.mem_cons_of_mem _ hx))

theorem listMax_mem {l : List Score} (h : l ≠ []) : listMax l ∈ l := by
  induction l with
  | nil => exact absurd rfl h
  | cons y t ih =>
    rcases eq_or_ne t [] with rfl | ht
    · simp [listMax_cons, listMax_nil]
    · rw [listMax_cons]
      rcases max_cases y (listMax t) with ⟨he, _⟩ | ⟨he, _⟩
      · rw [he]; exact List.mem_cons_self _ _
      · rw [he]; exact List.mem_cons_of_mem _ (ih ht)

theorem listMax_lt {l : List Score} {c : Score} (hc : (⊥ : Score) < c)
    (h : ∀ x ∈ l, x < c) : listMax l < c := by
  induction l with
  | nil => exact hc
  | cons y t ih =>
    exact max_lt (h y (List.mem_cons_self y t)) (ih fun x hx => h x (List.mem_cons_of_mem _ hx))

theorem listMax_append (l : List Score) (x : Score) :
    listMax (l ++ [x]) = max (listMax l) x := by
  induction l with
  | nil => simp [listMax_cons, listMax_nil, listMax]
  | cons y t ih =>
    simp only [List.cons_append, listMax_cons, ih, max_assoc]

theorem listMin_nil : listMin [] = ⊤ := rfl

theorem listMin_cons (x : Score) (l : List Score) : listMin (x :: l) = min x (listMin l) := rfl

theorem listMin_le {x : Score} {l : List Score} (hx : x ∈ l) : listMin l ≤ x := by
  induction l with
  | nil => cases hx
  | cons y t ih =>
    rcases List.mem_cons.mp hx with h | h
    · subst h; exact min_le_left _ _
    · exact le_trans (min_le_right _ _) (ih h)

theorem le_listMin {l : List Score} {c : Score} (h : ∀ x ∈ l, c ≤ x) : c ≤ listMin l := by
  induction l with
  | nil => exact le_top
  | cons y t ih =>
    exact le_min (h y (List.mem_cons_self y t)) (ih fun x hx => h x (List.mem_cons_of_mem _ hx))

theorem listMin_mem {l : List Score} (h : l ≠ []) : listMin l ∈ l := by
  induction l with
  | nil => exact absurd rfl h
  | cons y t ih =>
    rcases eq_or_ne t [] with rfl | ht
    · simp [listMin_cons, listMin_nil]
    · rw [listMin_cons]
      rcases min_cases y (listMin t) with ⟨he, _⟩ | ⟨he, _⟩
      · rw [he]; exact List.mem_cons_self _ _
      · rw [he]; exact List.mem_cons_of_mem _ (ih ht)

theorem lt_listMin {l : List Score} {c : Score} (hc : c < (⊤ : Score))
    (h : ∀ x ∈ l, c < x) : c < listMin l := by
  induction l with
  | nil => exact hc
  | cons y t ih =>
    exact lt_min (h y (List.mem_cons_self y t)) (ih fun x hx => h x (List.mem_cons_of_mem _ hx))

theorem listMin_append (l : List Score) (x : Score) :
    listMin (l ++ [x]) = min (listMin l) x := by
  induction l with
  | nil => simp [listMin_cons, listMin_nil, listMin]
  | cons y t ih =>
    simp only [List.cons_append, listMin_cons, ih, min_assoc]

theorem loopMaxAux_spec :
    ∀ (rest pre : List Score) (best : ℕ) (bv : Score),
      best < pre.length → (pre ++ rest).getD best ⊥ = bv →
      loopMaxAux rest pre.length best bv < (pre ++ rest).length ∧
        (pre ++ rest).getD (loopMaxAux rest pre.length best bv) ⊥ = max bv (listMax rest) := by
  intro rest
  induction rest with
  | nil =>
    intro pre best bv hb hv
    rw [List.append_nil] at hv ⊢
    simp only [loopMaxAux, listMax_nil]
    exact ⟨hb, by rw [max_eq_left bot_le]; exact hv⟩
  | cons x rest ih =>
    intro pre best bv hb hv
    have hx : (pre ++ x :: rest).getD pre.length ⊥ = x := by
      rw [List.getD_append_right _ _ _ _ (le_refl _), Nat.sub_self, List.getD_cons_zero]
    have hassoc : pre ++ x :: rest = (pre ++ [x]) ++ rest := by simp
    have hlen : (pre ++ [x]).length = pre.length + 1 := by simp
    by_cases hcmp : bv < x
    · have hx' : ((pre ++ [x]) ++ rest).getD pre.length ⊥ = x := by rw [← hassoc]; exact hx
      have hb' : pre.length < (pre ++ [x]).length := by simp
      have := ih (pre ++ [x]) pre.length x hb' hx'
      rw [hlen] at this
      rw [show loopMaxAux (x :: rest) pre.length best bv
            = loopMaxAux rest (pre.length + 1) pre.length x by simp [loopMaxAux, hcmp]]
      rw [hassoc]
      refine ⟨this.1, ?_⟩
      rw [this.2, listMax_cons, ← max_assoc, max_eq_right (le_of_lt hcmp)]
    · have hb' : best < (pre ++ [x]).length := by simp; omega
      have hv' : ((pre ++ [x]) ++ rest).getD best ⊥ = bv := by
        rw [← hassoc]
        rw [List.getD_append _ _ _ _ (by simpa using lt_of_lt_of_le hb (by simp))] at hv ⊢
        exact hv
      have := ih (pre ++ [x]) best bv hb' hv'
      rw [hlen] at this
      rw [show loopMaxAux (x :: rest) pre.length best bv
            = loopMaxAux rest (pre.length + 1) best bv by simp [loopMaxAux, hcmp]]
      rw [hassoc]
      refine ⟨this.1, ?_⟩
      rw [this.2, listMax_cons, ← max_assoc, max_eq_left (le_of_not_lt hcmp)]

theorem loopMax_spec {l : List Score} (h : l ≠ []) :
    loopMax l < l.length ∧ l.getD (loopMax l) ⊥ = listMax l := by
  match l with
  | x :: rest =>
    have := loopMaxAux_spec rest [x] 0 x (by simp) (by simp)
    simp only [List.singleton_append, List.length_singleton] at this
    exact ⟨this.1, by rw [loopMax, this.2, listMax_cons]⟩

theorem loopMinAux_spec :
    ∀ (rest pre : List Score) (best : ℕ) (bv : Score),
      best < pre.length → (pre ++ rest).getD best ⊥ = bv →
      loopMinAux rest pre.length best bv < (pre ++ rest).length ∧
        (pre ++ rest).getD (loopMinAux rest pre.length best bv) ⊥ = min bv (listMin rest) := by
  intro rest
  induction rest with
  | nil =>
    intro pre best bv hb hv
    rw [List.append_nil] at hv ⊢
    simp only [loopMinAux, listMin_nil]
    exact ⟨hb, by rw [min_eq_left le_top]; exact hv⟩
  | cons x rest ih =>
    intro pre best bv hb hv
    have hx : (pre ++ x :: rest).getD pre.length ⊥ = x := by
      rw [List.getD_append_right _ _ _ _ (le_refl _), Nat.sub_self, List.getD_cons_zero]
    have hassoc : pre ++ x :: rest = (pre ++ [x]) ++ rest := by simp
    have hlen : (pre ++ [x]).length = pre.length + 1 := by simp
    by_cases hcmp : x < bv
    · have hx' : ((pre ++ [x]) ++ rest).getD pre.length ⊥ = x := by rw [← hassoc]; exact hx
      have hb' : pre.length < (pre ++ [x]).length := by simp
      have := ih (pre ++ [x]) pre.length x hb' hx'
      rw [hlen] at this
      rw [show loopMinAux (x :: rest) pre.length best bv
            = loopMinAux rest (pre.length + 1) pre.length x by simp [loopMinAux, hcmp]]
      rw [hassoc]
      refine ⟨this.1, ?_⟩
      rw [this.2, listMin_cons, ← min_assoc, min_eq_right (le_of_lt hcmp)]
    · have hb' : best < (pre ++ [x]).length := by simp; omega
      have hv' : ((pre ++ [x]) ++ rest).getD best ⊥ = bv := by
        rw [← hassoc]
        rw [List.getD_append _ _ _ _ (by simpa using lt_of_lt_of_le hb (by simp))] at hv ⊢
        exact hv
      have := ih (pre ++ [x]) best bv hb' hv'
      rw [hlen] at this
      rw [show loopMinAux (x :: rest) pre.length best bv
            = loopMinAux rest (pre.length + 1) best bv by simp [loopMinAux, hcmp]]
      rw [hassoc]
      refine ⟨this.1, ?_⟩
      rw [this.2, listMin_cons, ← min_assoc, min_eq_left (le_of_not_lt hcmp)]

theorem loopMin_spec {l : List Score} (h : l ≠ []) :
    loopMin l < l.length ∧ l.getD (loopMin l) ⊥ = listMin l := by
  match l with
  | x :: rest =>
    have := loopMinAux_spec rest [x] 0 x (by simp) (by simp)
    simp only [List.singleton_append, List.length_singleton] at this
    exact ⟨this.1, by rw [loopMin, this.2, listMin_cons]⟩

theorem loopMaxGEAux_spec :
    ∀ (rest pre : List Score) (best : ℕ) (bv : Score),
      best < pre.length → (pre ++ rest).getD best ⊥ = bv →
      best ≤ loopMaxGEAux rest pre.length best bv ∧
        loopMaxGEAux rest pre.length best bv < (pre ++ rest).length ∧
        (pre ++ rest).getD (loopMaxGEAux rest pre.length best bv) ⊥ = max bv (listMax rest) ∧
        ∀ j, loopMaxGEAux rest pre.length best bv < j → j < (pre ++ rest).length →
          pre.length ≤ j →
          (pre ++ rest).getD j ⊥ < (pre ++ rest).getD (loopMaxGEAux rest pre.length best bv) ⊥ := by
  intro rest
  induction rest with
  | nil =>
    intro pre best bv hb hv
    rw [List.append_nil] at hv ⊢
    simp only [loopMaxGEAux, listMax_nil]
    exact ⟨le_refl _, hb, by rw [max_eq_left bot_le]; exact hv,
      fun j hj hjl hjp => absurd (lt_of_le_of_lt hjp hjl) (lt_irrefl _)⟩
  | cons x rest ih =>
    intro pre best bv hb hv
    have hx : (pre ++ x :: rest).getD pre.length ⊥ = x := by
      rw [List.getD_append_right _ _ _ _ (le_refl _), Nat.sub_self, List.getD_cons_zero]
    have hassoc : pre ++ x :: rest = (pre ++ [x]) ++ rest := by simp
    have hlen : (pre ++ [x]).length = pre.length + 1 := by simp
    by_cases hcmp : bv ≤ x
    · have hx' : ((pre ++ [x]) ++ rest).getD pre.length ⊥ = x := by rw [← hassoc]; exact hx
      have hb' : pre.length < (pre ++ [x]).length := by simp
      have := ih (pre ++ [x]) pre.length x hb' hx'
      rw [hlen] at this
      rw [show loopMaxGEAux (x :: rest) pre.length best bv
            = loopMaxGEAux rest (pre.length + 1) pre.length x by simp [loopMaxGEAux, hcmp]]
      rw [hassoc]
      obtain ⟨hk0, hk1, hk2, hk3⟩ := this
      refine ⟨le_trans (le_of_lt hb) hk0, hk1, ?_, ?_⟩
      · rw [hk2, listMax_cons, ← max_assoc, max_eq_right hcmp]
      · intro j hj hjl hjp
        exact hk3 j hj hjl (le_trans (Nat.succ_le_of_lt (lt_of_le_of_lt hk0 hj)) (le_refl _))
    · have hb' : best < (pre ++ [x]).length := by simp; omega
      have hv' : ((pre ++ [x]) ++ rest).getD best ⊥ = bv := by
        rw [← hassoc]
        rw [List.getD_append _ _ _ _ (by simpa using lt_of_lt_of_le hb (by simp))] at hv ⊢
        exact hv
      have := ih (pre ++ [x]) best bv hb' hv'
      rw [hlen] at this
      rw [show loopMaxGEAux (x :: rest) pre.length best bv
            = loopMaxGEAux rest (pre.length + 1) best bv by simp [loopMaxGEAux, hcmp]]
      rw [hassoc]
      obtain ⟨hk0, hk1, hk2, hk3⟩ := this
      have hval : ((pre ++ [x]) ++ rest).getD (loopMaxGEAux rest (pre.length + 1) best bv) ⊥
          = max bv (listMax (x :: rest)) := by
        rw [hk2, listMax_cons, ← max_assoc, max_eq_left (le_of_not_le hcmp)]
      refine ⟨hk0, hk1, hval, ?_⟩
      intro j hj hjl hjp
      rcases eq_or_lt_of_le hjp with hje | hjlt
      · rw [← hje, ← hassoc, hx, hassoc, hval]
        exact lt_of_lt_of_le (lt_of_not_le hcmp) (le_max_left _ _)
      · exact hk3 j hj hjl hjlt

theorem loopMaxGE_spec {l : List Score} (h : l ≠ []) :
    loopMaxGE l < l.length ∧ l.getD (loopMaxGE l) ⊥ = listMax l ∧
      ∀ j, loopMaxGE l < j → j < l.length → l.getD j ⊥ < l.getD (loopMaxGE l) ⊥ := by
  match l with
  | x :: rest =>
    have := loopMaxGEAux_spec rest [x] 0 x (by simp) (by simp)
    simp only [List.singleton_append, List.length_singleton] at this
    obtain ⟨_, hk1, hk2, hk3⟩ := this
    exact ⟨hk1, by rw [loopMaxGE, hk2, listMax_cons],
      fun j hj hjl => hk3 j hj hjl (Nat.succ_le_of_lt (lt_of_le_of_lt (Nat.zero_le _) hj))⟩

theorem selectPair_spec (b : Bool) {scores : List Score} {queue : List Move}
    (hs : scores ≠ []) (hlen : scores.length ≤ queue.length) :
    ∃ k, k < scores.length ∧
      selectPair b scores queue = some (scores.getD k ⊥, queue.getD k noMove) ∧
      scores.getD k ⊥ = (if b then listMax scores else listMin scores) := by
  cases b
  · obtain ⟨hk, hv⟩ := loopMin_spec hs
    have hk2 : loopMin scores < queue.length := lt_of_lt_of_le hk hlen
    have h1 : scores[loopMin scores]? = some (scores.getD (loopMin scores) ⊥) := by
      rw [List.getElem?_eq_getElem hk, List.getD_eq_getElem]
    have h2 : queue[loopMin scores]? = some (queue.getD (loopMin scores) noMove) := by
      rw [List.getElem?_eq_getElem hk2, List.getD_eq_getElem]
    refine ⟨loopMin scores, hk, ?_, by simpa using hv⟩
    show (scores[loopMin scores]?).bind
        (fun sc => (queue[loopMin scores]?).map fun mv => (sc, mv)) = _
    rw [h1, h2]
    rfl
  · obtain ⟨hk, hv⟩ := loopMax_spec hs
    have hk2 : loopMax scores < queue.length := lt_of_lt_of_le hk hlen
    have h1 : scores[loopMax scores]? = some (scores.getD (loopMax scores) ⊥) := by
      rw [List.getElem?_eq_getElem hk, List.getD_eq_getElem]
    have h2 : queue[loopMax scores]? = some (queue.getD (loopMax scores) noMove) := by
      rw [List.getElem?_eq_getElem hk2, List.getD_eq_getElem]
    refine ⟨loopMax scores, hk, ?_, by simpa using hv⟩
    show (scores[loopMax scores]?).bind
        (fun sc => (queue[loopMax scores]?).map fun mv => (sc, mv)) = _
    rw [h1, h2]
    rfl

theorem mapM_fst {α : Type} {f : α → Option (Score × Move)} {w : α → Score} :
    ∀ {l : List α}, (∀ a ∈ l, ∃ mv, f a = some (w a, mv)) →
      ∃ rs : List (Score × Move), l.mapM f = some rs ∧ rs.map Prod.fst = l.map w := by
  intro l
  induction l with
  | nil => exact fun _ => ⟨[], rfl, rfl⟩
  | cons a t ih =>
    intro h
    obtain ⟨mv, ha⟩ := h a (List.mem_cons_self a t)
    obtain ⟨rs, hrs, hmap⟩ := ih fun x hx => h x (List.mem_cons_of_mem _ hx)
    exact ⟨(w a, mv) :: rs, by rw [List.mapM_cons, ha, hrs]; rfl, by simp [hmap]⟩

theorem minimax_empty_pair (b : Bool) :
    (if b then ((⊥ : Score), noMove) else ((⊤ : Score), noMove))
      = ((if b then (⊥ : Score) else ⊤), noMove) := by
  cases b <;> rfl

/-- On a board where every dead-end state is scored by the evaluator as a loss
for the side to move (the Evaluator contract on terminal states, with `side`
tracking whether the searching agent is the active player), `minimax` returns
exactly the game-tree value `val` together with some move, at every depth
`>= 1`. -/
theorem minimaxP_eq_val {M : GameModel σ} {ev : σ → Score} {side : σ → Bool}
    (hflip : ∀ s m, m ∈ M.legalMoves s → side (M.forecast s m) = !side s)
    (hdead : ∀ s, M.legalMoves s = [] → ev s = if side s then ⊥ else ⊤) :
    ∀ d, 1 ≤ d → ∀ s b, side s = b →
      ∃ mv, minimaxP M ev d s b = some (val M ev d s b, mv) := by
  intro d
  induction d using Nat.strong_induction_on with
  | _ d IH =>
    rcases d with _ | _ | n
    · intro h; omega
    · intro _ s b hside
      by_cases hq : (M.legalMoves s).isEmpty
      · refine ⟨noMove, ?_⟩
        show (if (M.legalMoves s).isEmpty then
            some (if b then ((⊥ : Score), noMove) else ((⊤ : Score), noMove))
          else selectPair b ((M.legalMoves s).map fun m => ev (M.forecast s m))
            (M.legalMoves s)) = _
        rw [if_pos hq, minimax_empty_pair]
        show _ = some (val M ev 1 s b, noMove)
        rw [show val M ev 1 s b = if b then ⊥ else ⊤ by rw [val, if_pos hq]]
      · have hqne : M.legalMoves s ≠ [] := fun h => hq (by simp [h])
        have hcong : ((M.legalMoves s).map fun m => val M ev 0 (M.forecast s m) !b)
            = (M.legalMoves s).map fun m => ev (M.forecast s m) := by
          refine List.map_congr_left ?_
          intro m hm
          by_cases hme : (M.legalMoves (M.forecast s m)).isEmpty
          · have hdd := hdead (M.forecast s m) (List.isEmpty_iff.mp hme)
            have hsd : side (M.forecast s m) = !b := by rw [hflip s m hm, hside]
            rw [val, if_pos hme, hdd, hsd]
          · rw [val, if_neg hme]
        have hs : ((M.legalMoves s).map fun m => ev (M.forecast s m)) ≠ [] := by
          simpa using hqne
        have hlen : ((M.legalMoves s).map fun m => ev (M.forecast s m)).length
            ≤ (M.legalMoves s).length := by simp
        obtain ⟨k, hk, hsel, hval⟩ := selectPair_spec b hs hlen
        refine ⟨(M.legalMoves s).getD k noMove, ?_⟩
        show (if (M.legalMoves s).isEmpty then
            some (if b then ((⊥ : Score), noMove) else ((⊤ : Score), noMove))
          else selectPair b ((M.legalMoves s).map fun m => ev (M.forecast s m))
            (M.legalMoves s)) = _
        rw [if_neg hq, hsel, hval]
        have hv : val M ev 1 s b
            = if b then listMax ((M.legalMoves s).map fun m => ev (M.forecast s m))
              else listMin ((M.legalMoves s).map fun m => ev (M.forecast s m)) := by
          rw [show (1 : ℕ) = 0 + 1 by rfl, val, if_neg hq, hcong]
        rw [hv]
    · intro _ s b hside
      by_cases hq : (M.legalMoves s).isEmpty
      · refine ⟨noMove, ?_⟩
        show (if (M.legalMoves s).isEmpty then
            some (if b then ((⊥ : Score), noMove) else ((⊤ : Score), noMove))
          else _) = _
        rw [if_pos hq, minimax_empty_pair]
        show _ = some (val M ev (n + 2) s b, noMove)
        rw [show val M ev (n + 2) s b = if b then ⊥ else ⊤ by rw [val, if_pos hq]]
      · have hqne : M.legalMoves s ≠ [] := fun h => hq (by simp [h])
        have hkids : ∀ m ∈ M.legalMoves s, ∃ mv,
            minimaxP M ev (n + 1) (M.forecast s m) (!b)
              = some (val M ev (n + 1) (M.forecast s m) (!b), mv) := by
          intro m hm
          exact IH (n + 1) (by omega) (by omega) (M.forecast s m) (!b)
            (by rw [hflip s m hm, hside])
        obtain ⟨rs, hrs, hmap⟩ := mapM_fst hkids
        have hs : (rs.map Prod.fst) ≠ [] := by
          rw [hmap]; simpa using hqne
        have hlen : (rs.map Prod.fst).length ≤ (M.legalMoves s).length := by
          rw [hmap]; simp
        obtain ⟨k, hk, hsel, hval⟩ := selectPair_spec b hs hlen
        refine ⟨(M.legalMoves s).getD k noMove, ?_⟩
        show (if (M.legalMoves s).isEmpty then
            some (if b then ((⊥ : Score), noMove) else ((⊤ : Score), noMove))
          else
            ((M.legalMoves s).mapM fun m =>
                minimaxP M ev (n + 1) (M.forecast s m) !b).bind fun rs =>
              selectPair b (rs.map Prod.fst) (M.legalMoves s)) = _
        rw [if_neg hq, hrs, Option.some_bind, hsel, hval, hmap]
        have hv : val M ev (n + 2) s b
            = if b then listMax ((M.legalMoves s).map fun m =>
                val M ev (n + 1) (M.forecast s m) !b)
              else listMin ((M.legalMoves s).map fun m =>
                val M ev (n + 1) (M.forecast s m) !b) := by
          rw [val, if_neg hq]
        rw [hv]

/-- Fail-soft alpha-beta clauses relating a returned value `v` to the true
value `t` for a window `(alpha, beta)`: inside the window `v` is exactly `t`,
a fail-low `v` upper-bounds `t`, a fail-high `v` lower-bounds `t`. -/
def ABC (t alpha beta v : Score) : Prop :=
  (alpha < v → v < beta → v = t) ∧ (v ≤ alpha → t ≤ v) ∧ (beta ≤ v → v ≤ t)

theorem ABC_refl (t alpha beta : Score) : ABC t alpha beta t :=
  ⟨fun _ _ => rfl, fun _ => le_refl t, fun _ => le_refl t⟩

theorem ite_lt_max (a sc : Score) : (if a < sc then sc else a) = max a sc := by
  rcases lt_or_ge a sc with h | h
  · rw [if_pos h, max_eq_right (le_of_lt h)]
  · rw [if_neg (not_lt_of_ge h), max_eq_left h]

theorem ite_lt_min (sc nb : Score) : (if sc < nb then sc else nb) = min nb sc := by
  rcases lt_or_ge sc nb with h | h
  · rw [if_pos h, min_eq_right (le_of_lt h)]
  · rw [if_neg (not_lt_of_ge h), min_eq_left h]

/-- Invariant of the maximizing alpha-beta loop: `acc` holds the scores of the
processed children (all below `beta`, none exceeding `max alpha P` where `P`
bounds their true values from below), the running alpha is
`max alpha (listMax acc)`, and the final value satisfies the fail-soft clauses
against `max P (listMax of the remaining children's true values)`. -/
theorem abMaxLoop_ABC {child : Move → Score → Score} {w : Move → Score} {beta : Score}
    {queue : List Move}
    (hchild : ∀ m a, a < beta → ABC (w m) a beta (child m a)) :
    ∀ (rest : List Move) (acc : List Score) (alpha P : Score),
      alpha < beta →
      (∀ x ∈ acc, x < beta) →
      (∀ x ∈ acc, x ≤ max alpha P) →
      P ≤ listMax acc →
      (acc ≠ [] ∨ rest ≠ []) →
      ABC (max P (listMax (rest.map w))) alpha beta
        (abMaxLoop child beta queue rest (max alpha (listMax acc)) acc).1 := by
  intro rest
  induction rest with
  | nil =>
    intro acc alpha P hab hlt hub hP hne
    have hacc : acc ≠ [] := by
      rcases hne with h | h
      · exact h
      · exact absurd rfl h
    obtain ⟨hk, hv, _⟩ := loopMaxGE_spec hacc
    have hres : (abMaxLoop child beta queue [] (max alpha (listMax acc)) acc).1
        = listMax acc := by
      show (acc.getD (loopMaxGE acc) ⊥ : Score) = listMax acc
      exact hv
    rw [hres]
    simp only [List.map_nil, listMax_nil, max_eq_left (bot_le : (⊥ : Score) ≤ P)]
    refine ⟨?_, ?_, ?_⟩
    · intro h1 _
      have hle : listMax acc ≤ max alpha P := listMax_le hub
      rcases le_total P alpha with hc | hc
      · rw [max_eq_left hc] at hle
        exact absurd h1 (not_lt_of_ge hle)
      · rw [max_eq_right hc] at hle
        exact le_antisymm hle hP
    · intro _; exact hP
    · intro h3
      exact absurd (listMax_lt (lt_of_le_of_lt bot_le hab) hlt) (not_lt_of_ge h3)
  | cons m rest ih =>
    intro acc alpha P hab hlt hub hP hne
    have ha_lt : max alpha (listMax acc) < beta :=
      max_lt hab (listMax_lt (lt_of_le_of_lt bot_le hab) hlt)
    obtain ⟨hc1, hc2, hc3⟩ := hchild m (max alpha (listMax acc)) ha_lt
    have hunf : abMaxLoop child beta queue (m :: rest) (max alpha (listMax acc)) acc
        = if beta ≤ child m (max alpha (listMax acc)) then
            (child m (max alpha (listMax acc)), some m)
          else abMaxLoop child beta queue rest
            (if max alpha (listMax acc) < child m (max alpha (listMax acc)) then
              child m (max alpha (listMax acc)) else max alpha (listMax acc))
            (acc ++ [child m (max alpha (listMax acc))]) := rfl
    set sc := child m (max alpha (listMax acc)) with hsc
    by_cases hcut : beta ≤ sc
    · rw [hunf, if_pos hcut]
      refine ⟨?_, ?_, ?_⟩
      · intro _ h
        exact absurd h (not_lt_of_ge hcut)
      · intro h
        exact absurd hab (not_lt_of_ge (le_trans hcut h))
      · intro _
        calc sc ≤ w m := hc3 hcut
          _ ≤ max (w m) (listMax (rest.map w)) := le_max_left _ _
          _ ≤ max P (listMax ((m :: rest).map w)) := by
              rw [List.map_cons, listMax_cons]; exact le_max_right _ _
    · rw [hunf, if_neg hcut]
      have hscb : sc < beta := lt_of_not_ge hcut
      have harg : (if max alpha (listMax acc) < sc then sc else max alpha (listMax acc))
          = max alpha (listMax (acc ++ [sc])) := by
        rw [ite_lt_max, listMax_append, ← max_assoc]
      have hlt' : ∀ x ∈ acc ++ [sc], x < beta := by
        intro x hx
        rcases List.mem_append.mp hx with h | h
        · exact hlt x h
        · rw [List.mem_singleton.mp h]; exact hscb
      have hub' : ∀ x ∈ acc ++ [sc], x ≤ max alpha (max P (w m)) := by
        intro x hx
        rcases List.mem_append.mp hx with h | h
        · exact le_trans (hub x h) (max_le_max (le_refl alpha) (le_max_left _ _))
        · rw [List.mem_singleton.mp h]
          rcases le_or_lt sc (max alpha (listMax acc)) with hc | hc
          · have h1 : listMax acc ≤ max alpha P := listMax_le hub
            have h2 : max alpha (listMax acc) ≤ max alpha P :=
              max_le (le_max_left _ _) (le_trans h1 (le_refl _))
            exact le_trans (le_trans hc h2)
              (max_le_max (le_refl alpha) (le_max_left _ _))
          · rw [hc1 hc hscb]
            exact le_trans (le_max_right P (w m)) (le_max_right alpha _)
      have hP' : max P (w m) ≤ listMax (acc ++ [sc]) := by
        rw [listMax_append]
        refine max_le (le_trans hP (le_max_left _ _)) ?_
        rcases le_or_lt sc (max alpha (listMax acc)) with hc | hc
        · exact le_trans (hc2 hc) (le_max_right _ _)
        · rw [hc1 hc hscb]; exact le_max_right _ _
      have := ih (acc ++ [sc]) alpha (max P (w m)) hab hlt' hub' hP'
        (Or.inl (by simp))
      rw [harg]
      have htgt : max (max P (w m)) (listMax (rest.map w))
          = max P (listMax ((m :: rest).map w)) := by
        rw [List.map_cons, listMax_cons, max_assoc]
      rw [htgt] at this
      exact this

/-- Dual invariant of the minimizing alpha-beta loop. -/
theorem abMinLoop_ABC {child : Move → Score → Score} {w : Move → Score} {alpha : Score}
    {queue : List Move}
    (hchild : ∀ m nb, alpha < nb → ABC (w m) alpha nb (child m nb)) :
    ∀ (rest : List Move) (acc : List Score) (beta P : Score),
      alpha < beta →
      (∀ x ∈ acc, alpha < x) →
      (∀ x ∈ acc, min beta P ≤ x) →
      (listMin acc ≤ P) →
      (acc ≠ [] ∨ rest ≠ []) →
      ABC (min P (listMin (rest.map w))) alpha beta
        (abMinLoop child alpha queue rest (min beta (listMin acc)) acc).1 := by
  intro rest
  induction rest with
  | nil =>
    intro acc beta P hab hgt hub hP hne
    have hacc : acc ≠ [] := by
      rcases hne with h | h
      · exact h
      · exact absurd rfl h
    obtain ⟨hk, hv⟩ := loopMin_spec hacc
    have hres : (abMinLoop child alpha queue [] (min beta (listMin acc)) acc).1
        = listMin acc := by
      show (acc.getD (loopMin acc) ⊥ : Score) = listMin acc
      exact hv
    rw [hres]
    simp only [List.map_nil, listMin_nil, min_eq_left (le_top : P ≤ (⊤ : Score))]
    refine ⟨?_, ?_, ?_⟩
    · intro _ h2
      have hle : min beta P ≤ listMin acc := le_listMin hub
      rcases le_total beta P with hc | hc
      · rw [min_eq_left hc] at hle
        exact absurd h2 (not_lt_of_ge hle)
      · rw [min_eq_right hc] at hle
        exact le_antisymm hP hle
    · intro h2
      exact absurd (lt_listMin (lt_of_lt_of_le hab le_top) hgt) (not_lt_of_ge h2)
    · intro _; exact hP
  | cons m rest ih =>
    intro acc beta P hab hgt hub hP hne
    have hnb_gt : alpha < min beta (listMin acc) :=
      lt_min hab (lt_listMin (lt_of_lt_of_le hab le_top) hgt)
    obtain ⟨hc1, hc2, hc3⟩ := hchild m (min beta (listMin acc)) hnb_gt
    have hunf : abMinLoop child alpha queue (m :: rest) (min beta (listMin acc)) acc
        = if child m (min beta (listMin acc)) ≤ alpha then
            (child m (min beta (listMin acc)), some m)
          else abMinLoop child alpha queue rest
            (if child m (min beta (listMin acc)) < min beta (listMin acc) then
              child m (min beta (listMin acc)) else min beta (listMin acc))
            (acc ++ [child m (min beta (listMin acc))]) := rfl
    set sc := child m (min beta (listMin acc)) with hsc
    by_cases hcut : sc ≤ alpha
    · rw [hunf, if_pos hcut]
      refine ⟨?_, ?_, ?_⟩
      · intro h _
        exact absurd h (not_lt_of_ge hcut)
      · intro _
        calc min P (listMin ((m :: rest).map w))
            ≤ listMin ((m :: rest).map w) := min_le_right _ _
          _ ≤ min (w m) (listMin (rest.map w)) := by
              rw [List.map_cons, listMin_cons]
          _ ≤ w m := min_le_left _ _
          _ ≤ sc := hc2 hcut
      · intro h
        exact absurd hab (not_lt_of_ge (le_trans h hcut))
    · rw [hunf, if_neg hcut]
      have hsca : alpha < sc := lt_of_not_ge hcut
      have harg : (if sc < min beta (listMin acc) then sc else min beta (listMin acc))
          = min beta (listMin (acc ++ [sc])) := by
        rw [ite_lt_min, listMin_append, ← min_assoc]
      have hgt' : ∀ x ∈ acc ++ [sc], alpha < x := by
        intro x hx
        rcases List.mem_append.mp hx with h | h
        · exact hgt x h
        · rw [List.mem_singleton.mp h]; exact hsca
      have hub' : ∀ x ∈ acc ++ [sc], min beta (min P (w m)) ≤ x := by
        intro x hx
        rcases List.mem_append.mp hx with h | h
        · exact le_trans (min_le_min (le_refl beta) (min_le_left _ _)) (hub x h)
        · rw [List.mem_singleton.mp h]
          rcases le_or_lt (min beta (listMin acc)) sc with hc | hc
          · have h1 : min beta P ≤ listMin acc := le_listMin hub
            have h2 : min beta P ≤ min beta (listMin acc) :=
              le_min (min_le_left _ _) h1
            exact le_trans (min_le_min (le_refl beta) (min_le_left _ _))
              (le_trans h2 hc)
          · rw [hc1 hsca hc]
            exact le_trans (min_le_right beta _) (min_le_right P (w m))
      have hP' : listMin (acc ++ [sc]) ≤ min P (w m) := by
        rw [listMin_append]
        refine le_min (le_trans (min_le_left _ _) hP) ?_
        rcases le_or_lt (min beta (listMin acc)) sc with hc | hc
        · exact le_trans (min_le_right _ _) (hc3 hc)
        · rw [hc1 hsca hc]; exact min_le_right _ _
      have := ih (acc ++ [sc]) beta (min P (w m)) hab hgt' hub' hP'
        (Or.inl (by simp))
      rw [harg]
      have htgt : min (min P (w m)) (listMin (rest.map w))
          = min P (listMin ((m :: rest).map w)) := by
        rw [List.map_cons, listMin_cons, min_assoc]
      rw [htgt] at this
      exact this

/-- Fail-soft correctness of the embedded `alphabeta`: for any window
`alpha < beta` the returned score satisfies the fail-soft clauses against the
game-tree value. -/
theorem alphabetaP_ABC {M : GameModel σ} {ev : σ → Score} :
    ∀ (d : ℕ) (s : σ) (alpha beta : Score) (b : Bool), alpha < beta →
      ABC (val M ev d s b) alpha beta (alphabetaP M ev d s alpha beta b).1 := by
  intro d
  induction d with
  | zero =>
    intro s alpha beta b hab
    by_cases hq : (M.legalMoves s).isEmpty
    · have h1 : (alphabetaP M ev 0 s alpha beta b).1 = if b then ⊥ else ⊤ := by
        simp only [alphabetaP, if_pos hq]
        cases b <;> rfl
      have h2 : val M ev 0 s b = if b then ⊥ else ⊤ := by rw [val, if_pos hq]
      rw [h1, h2]; exact ABC_refl _ _ _
    · have h1 : (alphabetaP M ev 0 s alpha beta b).1 = ev s := by
        simp only [alphabetaP, if_neg hq]
      have h2 : val M ev 0 s b = ev s := by rw [val, if_neg hq]
      rw [h1, h2]; exact ABC_refl _ _ _
  | succ n ih =>
    intro s alpha beta b hab
    by_cases hq : (M.legalMoves s).isEmpty
    · have h1 : (alphabetaP M ev (n + 1) s alpha beta b).1 = if b then ⊥ else ⊤ := by
        simp only [alphabetaP, if_pos hq]
        cases b <;> rfl
      have h2 : val M ev (n + 1) s b = if b then ⊥ else ⊤ := by rw [val, if_pos hq]
      rw [h1, h2]; exact ABC_refl _ _ _
    · cases b
      · have h1 : alphabetaP M ev (n + 1) s alpha beta false
            = abMinLoop (fun m nb => (alphabetaP M ev n (M.forecast s m) alpha nb true).1)
                alpha (M.legalMoves s) (M.legalMoves s) beta [] := by
          simp only [alphabetaP, if_neg hq]
          rfl
        have hqne : M.legalMoves s ≠ [] := fun h => hq (by simp [h])
        have h2 : val M ev (n + 1) s false
            = listMin ((M.legalMoves s).map fun m =>
                val M ev n (M.forecast s m) true) := by
          rw [val, if_neg hq]
          rfl
        have hmain := @abMinLoop_ABC
          (fun m nb => (alphabetaP M ev n (M.forecast s m) alpha nb true).1)
          (fun m => val M ev n (M.forecast s m) true)
          alpha (M.legalMoves s)
          (fun m nb hnb => ih (M.forecast s m) alpha nb true hnb)
          (M.legalMoves s) [] beta ⊤ hab
          (fun x hx => absurd hx (List.not_mem_nil x))
          (fun x hx => absurd hx (List.not_mem_nil x))
          (by rw [listMin_nil])
          (Or.inr hqne)
        rw [listMin_nil, min_eq_left (le_top : beta ≤ (⊤ : Score)),
          min_eq_right (le_top : listMin ((M.legalMoves s).map fun m =>
            val M ev n (M.forecast s m) true) ≤ (⊤ : Score))] at hmain
        rw [h1, h2]
        exact hmain
      · have h1 : alphabetaP M ev (n + 1) s alpha beta true
            = abMaxLoop (fun m a => (alphabetaP M ev n (M.forecast s m) a beta false).1)
                beta (M.legalMoves s) (M.legalMoves s) alpha [] := by
          simp only [alphabetaP, if_neg hq]
          rfl
        have hqne : M.legalMoves s ≠ [] := fun h => hq (by simp [h])
        have h2 : val M ev (n + 1) s true
            = listMax ((M.legalMoves s).map fun m =>
                val M ev n (M.forecast s m) false) := by
          rw [val, if_neg hq]
          rfl
        have hmain := @abMaxLoop_ABC
          (fun m a => (alphabetaP M ev n (M.forecast s m) a beta false).1)
          (fun m => val M ev n (M.forecast s m) false)
          beta (M.legalMoves s)
          (fun m a ha => ih (M.forecast s m) a beta false ha)
          (M.legalMoves s) [] alpha ⊥ hab
          (fun x hx => absurd hx (List.not_mem_nil x))
          (fun x hx => absurd hx (List.not_mem_nil x))
          (by rw [listMax_nil])
          (Or.inr hqne)
        rw [listMax_nil, max_eq_left (bot_le : (⊥ : Score) ≤ alpha),
          max_eq_right (bot_le : (⊥ : Score) ≤ listMax ((M.legalMoves s).map fun m =>
            val M ev n (M.forecast s m) false))] at hmain
        rw [h1, h2]
        exact hmain

/-- With the full window `(-inf, +inf)` the score returned by `alphabeta` is
exactly the game-tree value. -/
theorem alphabetaP_root {M : GameModel σ} {ev : σ → Score} (d : ℕ) (s : σ) (b : Bool) :
    (alphabetaP M ev d s ⊥ ⊤ b).1 = val M ev d s b := by
  have hab : (⊥ : Score) < ⊤ := bot_lt_top
  obtain ⟨c1, c2, c3⟩ := alphabetaP_ABC d s ⊥ ⊤ b hab
  rcases le_or_lt ((alphabetaP M ev d s ⊥ ⊤ b).1) ⊥ with h | h
  · have hv := le_bot_iff.mp h
    have ht := c2 h
    rw [hv] at ht ⊢
    exact (le_bot_iff.mp ht).symm
  · rcases le_or_lt ⊤ ((alphabetaP M ev d s ⊥ ⊤ b).1) with h2 | h2
    · have hv := top_le_iff.mp h2
      have ht := c3 h2
      rw [hv] at ht ⊢
      exact (top_le_iff.mp ht).symm
    · exact c1 h h2

theorem getD_mem {l : List Score} {k : ℕ} (h : k < l.length) : l.getD k ⊥ ∈ l := by
  rw [List.getD_eq_getElem _ _ h]
  exact List.getElem_mem h

theorem getD_mem_mv {l : List Move} {k : ℕ} (h : k < l.length) : l.getD k noMove ∈ l := by
  rw [List.getD_eq_getElem _ _ h]
  exact List.getElem_mem h

/-- Parity of the active player in the counterexample model: player `0` is
active exactly at even states. -/
def sideC (s : ℕ) : Bool := decide (s % 2 = 0)

theorem sideC_succ (s : ℕ) : sideC (s + 1) = !sideC s := by
  rcases Nat.mod_two_eq_zero_or_one s with h | h
  · have h1 : (s + 1) % 2 = 1 := by omega
    simp [sideC, h, h1]
  · have h1 : (s + 1) % 2 = 0 := by omega
    simp [sideC, h, h1]

theorem sideC_flip (s : ℕ) (m : Move) : sideC (forecastC s m) = !sideC s := by
  unfold forecastC
  split_ifs with h1 h2 h3 h4 h5
  · obtain ⟨rfl, -⟩ := h1; decide
  · obtain ⟨rfl, -⟩ := h2; decide
  · obtain ⟨rfl, -⟩ := h3; decide
  · obtain ⟨rfl, -⟩ := h4; decide
  · obtain ⟨rfl, -⟩ := h5; decide
  · exact sideC_succ s

theorem legalC_ne (s : ℕ) : CexM.legalMoves s ≠ [] := by
  show legalC s ≠ []
  unfold legalC
  split <;> simp

/-- C1 (amended): for every game state, search depth `>= 1` and Evaluator
that scores every dead-end state as a loss for the side to move (`side` tracks
whether the agent is active; this is the Evaluator contract on terminal
states), `minimax(state, depth, True)` and `alphabeta(state, depth)` compute
the same root score; the selected root moves may differ even when no two
candidate root moves receive equal minimax scores. -/
theorem claim_C1 {σ : Type} {M : GameModel σ} {ev : σ → Score} {side : σ → Bool}
    (hflip : ∀ s m, m ∈ M.legalMoves s → side (M.forecast s m) = !side s)
    (hdead : ∀ s, M.legalMoves s = [] → ev s = if side s then ⊥ else ⊤)
    (d : ℕ) (hd : 1 ≤ d) (s : σ) (hs : side s = true) :
    ∃ mv, minimaxP M ev d s true = some ((alphabetaP M ev d s ⊥ ⊤ true).1, mv) := by
  obtain ⟨mv, h⟩ := minimaxP_eq_val hflip hdead d hd s true hs
  rw [alphabetaP_root]
  exact ⟨mv, h⟩

/-- C1 as frozen is false: in the concrete model `CexM` at depth 2 the two
candidate root moves receive distinct minimax scores (`5` and `3`), yet
`minimax` selects root move `(0,0)` while `alphabeta` selects `(0,1)` — a
fail-soft cutoff at the second child returns a score tied with the running
best and the `>=` final scan keeps the later index. -/
theorem claim_C1_cex :
    minimaxP CexM evC 2 0 true = some (finScore 5, (0, 0)) ∧
    alphabetaP CexM evC 2 0 ⊥ ⊤ true = (finScore 5, some (0, 1)) ∧
    ((0, 0) : Move) ≠ ((0, 1) : Move) ∧
    (minimaxP CexM evC 1 (CexM.forecast 0 (0, 0)) false).map Prod.fst
      = some (finScore 5) ∧
    (minimaxP CexM evC 1 (CexM.forecast 0 (0, 1)) false).map Prod.fst
      = some (finScore 3) ∧
    finScore 5 ≠ finScore 3 := by
  refine ⟨by decide, by decide, by decide, by decide, by decide, by decide⟩

theorem claim_C1_witness :
    ∃ mv, minimaxP CexM evC 2 0 true
      = some ((alphabetaP CexM evC 2 0 ⊥ ⊤ true).1, mv) :=
  @claim_C1 ℕ CexM evC sideC (fun s m _ => sideC_flip s m)
    (fun s h => absurd h (legalC_ne s)) 2 (by decide) 0 (by decide)

theorem selectPair_mem {b : Bool} {scores : List Score} {queue : List Move}
    {r : Score × Move} (h : selectPair b scores queue = some r) : r.2 ∈ queue := by
  unfold selectPair at h
  obtain ⟨sc, hsc, hmap⟩ := Option.bind_eq_some.mp h
  obtain ⟨mv, hmv, heq⟩ := Option.map_eq_some'.mp hmap
  have h2 : r.2 = mv := by rw [← heq]
  rw [h2]
  obtain ⟨hk, rfl⟩ := List.getElem?_eq_some_iff.mp hmv
  exact List.getElem_mem hk

theorem minimaxP_move_mem {M : GameModel σ} {ev : σ → Score} :
    ∀ (d : ℕ) (s : σ) (b : Bool) (sc : Score) (mv : Move),
      minimaxP M ev d s b = some (sc, mv) →
      mv ∈ M.legalMoves s ∨ (mv = noMove ∧ M.legalMoves s = []) := by
  intro d s b sc mv h
  rcases d with _ | _ | n
  · by_cases hq : (M.legalMoves s).isEmpty
    · right
      refine ⟨?_, List.isEmpty_iff.mp hq⟩
      cases b <;> simp only [minimaxP, hq, if_true] at h <;>
        exact ((Prod.mk.injEq _ _ _ _).mp (Option.some.inj h)).2.symm
    · simp only [minimaxP, hq, Bool.false_eq_true, if_false] at h
      exact absurd h (by simp)
  · by_cases hq : (M.legalMoves s).isEmpty
    · right
      refine ⟨?_, List.isEmpty_iff.mp hq⟩
      cases b <;> simp only [minimaxP, hq, if_true] at h <;>
        exact ((Prod.mk.injEq _ _ _ _).mp (Option.some.inj h)).2.symm
    · left
      simp only [minimaxP, hq, Bool.false_eq_true, if_false] at h
      exact selectPair_mem h
  · by_cases hq : (M.legalMoves s).isEmpty
    · right
      refine ⟨?_, List.isEmpty_iff.mp hq⟩
      cases b <;> simp only [minimaxP, hq, if_true] at h <;>
        exact ((Prod.mk.injEq _ _ _ _).mp (Option.some.inj h)).2.symm
    · left
      simp only [minimaxP, hq, Bool.false_eq_true, if_false] at h
      obtain ⟨rs, _, hsel⟩ := Option.bind_eq_some.mp h
      exact selectPair_mem hsel

theorem abMaxLoop_move_mem {child : Move → Score → Score} {beta : Score}
    {queue : List Move} :
    ∀ (rest : List Move) (a : Score) (scores : List Score),
      (∀ m ∈ rest, m ∈ queue) →
      scores.length + rest.length ≤ queue.length →
      (scores ≠ [] ∨ rest ≠ []) →
      ∀ mv, (abMaxLoop child beta queue rest a scores).2 = some mv → mv ∈ queue := by
  intro rest
  induction rest with
  | nil =>
    intro a scores hsub hlen hne mv h
    have hne' : scores ≠ [] := by
      rcases hne with h' | h'
      · exact h'
      · exact absurd rfl h'
    obtain ⟨hk, -, -⟩ := loopMaxGE_spec hne'
    have hres : (abMaxLoop child beta queue [] a scores).2
        = some (queue.getD (loopMaxGE scores) noMove) := rfl
    rw [hres] at h
    rw [(Option.some.inj h).symm]
    exact getD_mem_mv (lt_of_lt_of_le hk (by simpa using hlen))
  | cons m rest ih =>
    intro a scores hsub hlen hne mv h
    have hunf : abMaxLoop child beta queue (m :: rest) a scores
        = if beta ≤ child m a then (child m a, some m)
          else abMaxLoop child beta queue rest
            (if a < child m a then child m a else a) (scores ++ [child m a]) := rfl
    by_cases hcut : beta ≤ child m a
    · rw [hunf, if_pos hcut] at h
      rw [(Option.some.inj h).symm]
      exact hsub m (List.mem_cons_self m rest)
    · rw [hunf, if_neg hcut] at h
      exact ih (if a < child m a then child m a else a) (scores ++ [child m a])
        (fun x hx => hsub x (List.mem_cons_of_mem _ hx))
        (by simp at hlen ⊢; omega)
        (Or.inl (by simp)) mv h

theorem abMinLoop_move_mem {child : Move → Score → Score} {alpha : Score}
    {queue : List Move} :
    ∀ (rest : List Move) (nb : Score) (scores : List Score),
      (∀ m ∈ rest, m ∈ queue) →
      scores.length + rest.length ≤ queue.length →
      (scores ≠ [] ∨ rest ≠ []) →
      ∀ mv, (abMinLoop child alpha queue rest nb scores).2 = some mv → mv ∈ queue := by
  intro rest
  induction rest with
  | nil =>
    intro nb scores hsub hlen hne mv h
    have hne' : scores ≠ [] := by
      rcases hne with h' | h'
      · exact h'
      · exact absurd rfl h'
    obtain ⟨hk, -⟩ := loopMin_spec hne'
    have hres : (abMinLoop child alpha queue [] nb scores).2
        = some (queue.getD (loopMin scores) noMove) := rfl
    rw [hres] at h
    rw [(Option.some.inj h).symm]
    exact getD_mem_mv (lt_of_lt_of_le hk (by simpa using hlen))
  | cons m rest ih =>
    intro nb scores hsub hlen hne mv h
    have hunf : abMinLoop child alpha queue (m :: rest) nb scores
        = if child m nb ≤ alpha then (child m nb, some m)
          else abMinLoop child alpha queue rest
            (if child m nb < nb then child m nb else nb) (scores ++ [child m nb]) := rfl
    by_cases hcut : child m nb ≤ alpha
    · rw [hunf, if_pos hcut] at h
      rw [(Option.some.inj h).symm]
      exact hsub m (List.mem_cons_self m rest)
    · rw [hunf, if_neg hcut] at h
      exact ih (if child m nb < nb then child m nb else nb) (scores ++ [child m nb])
        (fun x hx => hsub x (List.mem_cons_of_mem _ hx))
        (by simp at hlen ⊢; omega)
        (Or.inl (by simp)) mv h

theorem alphabetaP_move_mem {M : GameModel σ} {ev : σ → Score} :
    ∀ (d : ℕ) (s : σ) (alpha beta : Score) (b : Bool) (mv : Move),
      (alphabetaP M ev d s alpha beta b).2 = some mv →
      mv ∈ M.legalMoves s ∨ (mv = noMove ∧ M.legalMoves s = []) := by
  intro d s alpha beta b mv h
  rcases d with _ | n
  · by_cases hq : (M.legalMoves s).isEmpty
    · right
      refine ⟨?_, List.isEmpty_iff.mp hq⟩
      simp only [alphabetaP, hq, if_true] at h
      cases b <;> exact (Option.some.inj h).symm
    · simp only [alphabetaP, hq, Bool.false_eq_true, if_false] at h
      exact absurd h (by simp)
  · by_cases hq : (M.legalMoves s).isEmpty
    · right
      refine ⟨?_, List.isEmpty_iff.mp hq⟩
      simp only [alphabetaP, hq, if_true] at h
      cases b <;> exact (Option.some.inj h).symm
    · left
      have hqne : M.legalMoves s ≠ [] := fun h' => hq (by simp [h'])
      cases b
      · have h1 : alphabetaP M ev (n + 1) s alpha beta false
            = abMinLoop (fun m nb => (alphabetaP M ev n (M.forecast s m) alpha nb true).1)
                alpha (M.legalMoves s) (M.legalMoves s) beta [] := by
          simp only [alphabetaP, if_neg hq]
          rfl
        rw [h1] at h
        exact abMinLoop_move_mem (M.legalMoves s) beta []
          (fun x hx => hx) (by simp) (Or.inr hqne) mv h
      · have h1 : alphabetaP M ev (n + 1) s alpha beta true
            = abMaxLoop (fun m a => (alphabetaP M ev n (M.forecast s m) a beta false).1)
                beta (M.legalMoves s) (M.legalMoves s) alpha [] := by
          simp only [alphabetaP, if_neg hq]
          rfl
        rw [h1] at h
        exact abMaxLoop_move_mem (M.legalMoves s) alpha []
          (fun x hx => hx) (by simp) (Or.inr hqne) mv h

/-- C5: for every state and depth, the move component of any pair returned by
`minimax` or by `alphabeta` is either an element of the legal-move list
enumerated for that state or the sentinel `(-1,-1)` (the sentinel only on an
empty list); consequently, once a non-empty legal-move list not containing the
sentinel is confirmed, `alphabeta` never returns the sentinel move. -/
theorem claim_C5 {σ : Type} (M : GameModel σ) (ev : σ → Score) :
    (∀ (d : ℕ) (s : σ) (b : Bool) (sc : Score) (mv : Move),
      minimaxP M ev d s b = some (sc, mv) →
      mv ∈ M.legalMoves s ∨ (mv = noMove ∧ M.legalMoves s = [])) ∧
    (∀ (d : ℕ) (s : σ) (alpha beta : Score) (b : Bool) (mv : Move),
      (alphabetaP M ev d s alpha beta b).2 = some mv →
      mv ∈ M.legalMoves s ∨ (mv = noMove ∧ M.legalMoves s = [])) ∧
    (∀ (d : ℕ) (s : σ) (alpha beta : Score) (b : Bool) (mv : Move),
      M.legalMoves s ≠ [] → noMove ∉ M.legalMoves s →
      (alphabetaP M ev d s alpha beta b).2 = some mv → mv ≠ noMove) := by
  refine ⟨minimaxP_move_mem, alphabetaP_move_mem, ?_⟩
  intro d s alpha beta b mv hne hns h heq
  rcases alphabetaP_move_mem d s alpha beta b mv h with hmem | ⟨-, hq⟩
  · rw [heq] at hmem
    exact hns hmem
  · exact hne hq

theorem claim_C5_witness :
    (((0, 0) : Move) ∈ CexM.legalMoves 0 ∨
      (((0, 0) : Move) = noMove ∧ CexM.legalMoves 0 = [])) ∧
    (((0, 1) : Move) ∈ CexM.legalMoves 0 ∨
      (((0, 1) : Move) = noMove ∧ CexM.legalMoves 0 = [])) ∧
    ((0, 1) : Move) ≠ noMove :=
  ⟨(claim_C5 CexM evC).1 2 0 true (finScore 5) (0, 0) (by decide),
   (claim_C5 CexM evC).2.1 2 0 ⊥ ⊤ true (0, 1) (by decide),
   (claim_C5 CexM evC).2.2 2 0 ⊥ ⊤ true (0, 1) (by decide) (by decide) (by decide)⟩

/-- C6 (amended): the one-ply candidate evaluation described by the claim
happens at `depth == 1`, not `depth == 0`: at depth 1 `minimax` evaluates the
Evaluator on the forecast state of each candidate move and returns an optimal
(score, move) pair from those candidates, while at `depth == 0` with a
non-empty candidate list `minimax` returns no pair at all (the score list is
empty and `scores[max]` raises IndexError). -/
theorem claim_C6 {σ : Type} (M : GameModel σ) (ev : σ → Score) (s : σ) (b : Bool)
    (hq : M.legalMoves s ≠ []) :
    minimaxP M ev 0 s b = none ∧
    ∃ mv ∈ M.legalMoves s,
      minimaxP M ev 1 s b = some (ev (M.forecast s mv), mv) ∧
      (b = true → ∀ m ∈ M.legalMoves s,
        ev (M.forecast s m) ≤ ev (M.forecast s mv)) ∧
      (b = false → ∀ m ∈ M.legalMoves s,
        ev (M.forecast s mv) ≤ ev (M.forecast s m)) := by
  have hqe : ¬(M.legalMoves s).isEmpty := fun h => hq (List.isEmpty_iff.mp h)
  constructor
  · simp only [minimaxP, hqe, Bool.false_eq_true, if_false]
  · have hs : ((M.legalMoves s).map fun m => ev (M.forecast s m)) ≠ [] := by
      simpa using hq
    have hlen : ((M.legalMoves s).map fun m => ev (M.forecast s m)).length
        ≤ (M.legalMoves s).length := by simp
    obtain ⟨k, hk, hsel, hval⟩ := selectPair_spec b hs hlen
    have hk2 : k < (M.legalMoves s).length := by simpa using hk
    have hpair : ((M.legalMoves s).map fun m => ev (M.forecast s m)).getD k ⊥
        = ev (M.forecast s ((M.legalMoves s).getD k noMove)) := by
      rw [List.getD_eq_getElem _ _ hk, List.getD_eq_getElem _ _ hk2, List.getElem_map]
    refine ⟨(M.legalMoves s).getD k noMove, getD_mem_mv hk2, ?_, ?_, ?_⟩
    · have h1 : minimaxP M ev 1 s b
          = selectPair b ((M.legalMoves s).map fun m => ev (M.forecast s m))
              (M.legalMoves s) := by
        simp only [minimaxP, hqe, Bool.false_eq_true, if_false]
      rw [h1, hsel, hpair]
    · intro hb m hm
      rw [hb] at hval
      rw [← hpair, hval]
      simp only [if_true]
      exact le_listMax (List.mem_map_of_mem _ hm)
    · intro hb m hm
      rw [hb] at hval
      rw [← hpair, hval]
      simp only [Bool.false_eq_true, if_false]
      exact listMin_le (List.mem_map_of_mem _ hm)

/-- C6 is false as stated: in `CexM` the root state has two candidate moves,
yet `minimax` at depth 0 returns no (score, move) pair at all — the source
raises IndexError on the empty score list. -/
theorem claim_C6_cex :
    minimaxP CexM evC 0 0 true = none ∧ CexM.legalMoves 0 ≠ [] := by
  refine ⟨by decide, by decide⟩

theorem claim_C6_witness :
    minimaxP CexM evC 0 0 true = none ∧
    ∃ mv ∈ CexM.legalMoves 0,
      minimaxP CexM evC 1 0 true = some (evC (CexM.forecast 0 mv), mv) ∧
      (true = true → ∀ m ∈ CexM.legalMoves 0,
        evC (CexM.forecast 0 m) ≤ evC (CexM.forecast 0 mv)) ∧
      (true = false → ∀ m ∈ CexM.legalMoves 0,
        evC (CexM.forecast 0 mv) ≤ evC (CexM.forecast 0 m)) :=
  claim_C6 CexM evC 0 true (by decide)

/-- Child scores produced by the maximizing alpha-beta loop, with the running
`new_alpha` threaded exactly as in the source. -/
def abChildScores (child : Move → Score → Score) : List Move → Score → List Score
  | [], _ => []
  | m :: rest, a =>
    child m a :: abChildScores child rest (if a < child m a then child m a else a)

theorem abChildScores_length (child : Move → Score → Score) :
    ∀ (l : List Move) (a : Score), (abChildScores child l a).length = l.length := by
  intro l
  induction l with
  | nil => intro a; rfl
  | cons m rest ih => intro a; simp [abChildScores, ih]

theorem abMaxLoop_no_cutoff {child : Move → Score → Score} {beta : Score}
    {queue : List Move} :
    ∀ (rest : List Move) (a : Score) (acc : List Score),
      (∀ x ∈ abChildScores child rest a, x < beta) →
      abMaxLoop child beta queue rest a acc
        = ((acc ++ abChildScores child rest a).getD
             (loopMaxGE (acc ++ abChildScores child rest a)) ⊥,
           some (queue.getD (loopMaxGE (acc ++ abChildScores child rest a)) noMove)) := by
  intro rest
  induction rest with
  | nil =>
    intro a acc h
    simp only [abChildScores, List.append_nil]
    rfl
  | cons m rest ih =>
    intro a acc h
    have hsc : child m a < beta := by
      refine h (child m a) ?_
      show child m a ∈ child m a :: _
      exact List.mem_cons_self _ _
    have hunf : abMaxLoop child beta queue (m :: rest) a acc
        = if beta ≤ child m a then (child m a, some m)
          else abMaxLoop child beta queue rest
            (if a < child m a then child m a else a) (acc ++ [child m a]) := rfl
    rw [hunf, if_neg (not_le_of_lt hsc)]
    have htail : ∀ x ∈ abChildScores child rest
        (if a < child m a then child m a else a), x < beta := by
      intro x hx
      refine h x ?_
      show x ∈ child m a :: _
      exact List.mem_cons_of_mem _ hx
    rw [ih (if a < child m a then child m a else a) (acc ++ [child m a]) htail]
    have hl : (acc ++ [child m a]) ++ abChildScores child rest
          (if a < child m a then child m a else a)
        = acc ++ abChildScores child (m :: rest) a := by
      show _ = acc ++ (child m a :: _)
      simp [List.append_assoc]
    rw [hl]

/-- C7 (amended): at every maximizing alphabeta node that exhausts all
candidate moves without a beta cutoff, the returned move is the LAST move in
enumeration order attaining the greatest child score — ties keep the
last-seen candidate, not the first-seen one. -/
theorem claim_C7 {σ : Type} (M : GameModel σ) (ev : σ → Score) (d : ℕ) (s : σ)
    (alpha beta : Score) (cs : List Score)
    (hcs : cs = abChildScores
        (fun m a => (alphabetaP M ev d (M.forecast s m) a beta false).1)
        (M.legalMoves s) alpha)
    (hq : M.legalMoves s ≠ []) (hnc : ∀ x ∈ cs, x < beta) :
    ∃ k, k < cs.length ∧
      alphabetaP M ev (d + 1) s alpha beta true
        = (cs.getD k ⊥, some ((M.legalMoves s).getD k noMove)) ∧
      (∀ j, j < cs.length → cs.getD j ⊥ ≤ cs.getD k ⊥) ∧
      (∀ j, k < j → j < cs.length → cs.getD j ⊥ < cs.getD k ⊥) := by
  have hqe : ¬(M.legalMoves s).isEmpty := fun h => hq (List.isEmpty_iff.mp h)
  have h1 : alphabetaP M ev (d + 1) s alpha beta true
      = abMaxLoop (fun m a => (alphabetaP M ev d (M.forecast s m) a beta false).1)
          beta (M.legalMoves s) (M.legalMoves s) alpha [] := by
    simp only [alphabetaP, if_neg hqe]
    rfl
  have h2 := @abMaxLoop_no_cutoff
    (fun m a => (alphabetaP M ev d (M.forecast s m) a beta false).1)
    beta (M.legalMoves s) (M.legalMoves s) alpha []
    (by rw [← hcs]; exact hnc)
  rw [List.nil_append, ← hcs] at h2
  have hcne : cs ≠ [] := by
    rw [hcs]
    intro hk
    have := abChildScores_length
      (fun m a => (alphabetaP M ev d (M.forecast s m) a beta false).1)
      (M.legalMoves s) alpha
    rw [hk] at this
    exact hq (List.length_eq_zero.mp this.symm)
  obtain ⟨hk, hv, hlast⟩ := loopMaxGE_spec hcne
  refine ⟨loopMaxGE cs, hk, ?_, ?_, hlast⟩
  · rw [h1, h2]
  · intro j hj
    rw [hv]
    exact le_listMax (getD_mem hj)

/-- C7 is false as stated: at the root of `CexM` at depth 2 the two children
both score `5` (no beta cutoff occurs, `5 < +inf`), the first candidate
attaining the greatest child score is `(0,0)`, yet alphabeta returns `(0,1)`
— the `>=` scan keeps the last-seen tying candidate. -/
theorem claim_C7_cex :
    (alphabetaP CexM evC 1 (CexM.forecast 0 (0, 0)) ⊥ ⊤ false).1 = finScore 5 ∧
    (alphabetaP CexM evC 1 (CexM.forecast 0 (0, 1)) (finScore 5) ⊤ false).1
      = finScore 5 ∧
    (finScore 5 : Score) < ⊤ ∧
    alphabetaP CexM evC 2 0 ⊥ ⊤ true = (finScore 5, some (0, 1)) ∧
    CexM.legalMoves 0 = [(0, 0), (0, 1)] ∧
    ((0, 1) : Move) ≠ ((0, 0) : Move) := by
  refine ⟨by decide, by decide, by decide, by decide, by decide, by decide⟩

theorem claim_C7_witness :
    ∃ k, k < (abChildScores
        (fun m a => (alphabetaP CexM evC 1 (CexM.forecast 0 m) a ⊤ false).1)
        (CexM.legalMoves 0) ⊥).length ∧
      alphabetaP CexM evC 2 0 ⊥ ⊤ true
        = ((abChildScores
            (fun m a => (alphabetaP CexM evC 1 (CexM.forecast 0 m) a ⊤ false).1)
            (CexM.legalMoves 0) ⊥).getD k ⊥,
           some ((CexM.legalMoves 0).getD k noMove)) ∧
      (∀ j, j < (abChildScores
          (fun m a => (alphabetaP CexM evC 1 (CexM.forecast 0 m) a ⊤ false).1)
          (CexM.legalMoves 0) ⊥).length →
        (abChildScores
          (fun m a => (alphabetaP CexM evC 1 (CexM.forecast 0 m) a ⊤ false).1)
          (CexM.legalMoves 0) ⊥).getD j ⊥
          ≤ (abChildScores
              (fun m a => (alphabetaP CexM evC 1 (CexM.forecast 0 m) a ⊤ false).1)
              (CexM.legalMoves 0) ⊥).getD k ⊥) ∧
      (∀ j, k < j → j < (abChildScores
          (fun m a => (alphabetaP CexM evC 1 (CexM.forecast 0 m) a ⊤ false).1)
          (CexM.legalMoves 0) ⊥).length →
        (abChildScores
          (fun m a => (alphabetaP CexM evC 1 (CexM.forecast 0 m) a ⊤ false).1)
          (CexM.legalMoves 0) ⊥).getD j ⊥
          < (abChildScores
              (fun m a => (alphabetaP CexM evC 1 (CexM.forecast 0 m) a ⊤ false).1)
              (CexM.legalMoves 0) ⊥).getD k ⊥) :=
  claim_C7 CexM evC 1 0 ⊥ ⊤ _ rfl (by decide) (by decide)

/-- The two search method selectors used by `get_move`. -/
inductive Method
  | minimax
  | alphabeta
deriving DecidableEq

/-- Embedding of the `CustomPlayer` object state set up by `__init__`:
`search_depth`, `score` (the heuristic function), `iterative`, `method` and
`TIMER_THRESHOLD`, plus the identity `me` of the agent object itself — the
source passes the object `self` as the perspective argument of `score` at
every call site. -/
structure CustomPlayer (σ : Type) where
  search_depth : ℕ
  score : σ → Player → Score
  iterative : Bool
  method : Method
  TIMER_THRESHOLD : ℚ
  me : Player

/-- Embedding of `CustomPlayer.__init__`: stores the configuration and sets
`self.TIMER_THRESHOLD = timeout - 2`. -/
def mkPlayer (search_depth : ℕ) (score_fn : σ → Player → Score) (iterative : Bool)
    (method : Method) (timeout : ℚ) (me : Player) : CustomPlayer σ :=
  { search_depth := search_depth, score := score_fn, iterative := iterative,
    method := method, TIMER_THRESHOLD := timeout - 2, me := me }

/-- The evaluator as invoked by the search: every call site in `minimax` and
`alphabeta` is `self.score(new_game, self)`, so the perspective player passed
is always the agent itself. -/
def CustomPlayer.evalFn (a : CustomPlayer σ) : σ → Score := fun s => a.score s a.me

/-- C10: every invocation of the score function inside the searches passes the
CustomPlayer instance itself as the perspective player, hence two agents whose
Evaluators agree on all states evaluated from the agent's own perspective
produce identical (score, move) search results at all depths, roles and
windows, even if the Evaluators disagree from every other perspective. -/
theorem claim_C10 {σ : Type} (M : GameModel σ) (f1 f2 : σ → Player → Score)
    (sd : ℕ) (it : Bool) (mth : Method) (tmo : ℚ) (me : Player)
    (hagree : ∀ s, f1 s me = f2 s me) :
    ∀ (d : ℕ) (s : σ) (b : Bool) (alpha beta : Score),
      minimaxP M (mkPlayer sd f1 it mth tmo me).evalFn d s b
        = minimaxP M (mkPlayer sd f2 it mth tmo me).evalFn d s b ∧
      alphabetaP M (mkPlayer sd f1 it mth tmo me).evalFn d s alpha beta b
        = alphabetaP M (mkPlayer sd f2 it mth tmo me).evalFn d s alpha beta b := by
  have hfn : (mkPlayer sd f1 it mth tmo me : CustomPlayer σ).evalFn
      = (mkPlayer sd f2 it mth tmo me : CustomPlayer σ).evalFn :=
    funext fun s => hagree s
  intro d s b alpha beta
  rw [hfn]
  exact ⟨rfl, rfl⟩

/-- An evaluator agreeing with `evC` from player 0's perspective only. -/
def evW1 : ℕ → Player → Score := fun s p => if p = 0 then evC s else finScore 7

/-- A second evaluator agreeing with `evC` from player 0's perspective but
differing from `evW1` at every other perspective. -/
def evW2 : ℕ → Player → Score := fun s p => if p = 0 then evC s else finScore 9

theorem claim_C10_witness :
    minimaxP CexM (mkPlayer 3 evW1 true Method.minimax 10 0).evalFn 2 0 true
      = minimaxP CexM (mkPlayer 3 evW2 true Method.minimax 10 0).evalFn 2 0 true ∧
    alphabetaP CexM (mkPlayer 3 evW1 true Method.minimax 10 0).evalFn 2 0 ⊥ ⊤ true
      = alphabetaP CexM (mkPlayer 3 evW2 true Method.minimax 10 0).evalFn 2 0 ⊥ ⊤ true :=
  claim_C10 CexM evW1 evW2 3 true Method.minimax 10 0 (fun _ => rfl) 2 0 true ⊥ ⊤

/-- Error conditions of the source searches: the `Timeout` exception raised by
the clock check, and the `IndexError` raised by out-of-range indexing
(`scores[max]` on an empty list, `result[1]` on the depth-0 one-tuple). -/
inductive Err
  | timeout
  | index
deriving DecidableEq

/-- The move loop of the clock-threaded `minimax`: run the recursive search on
every forecast state, threading the clock-query counter, collecting child
scores and propagating any raised error unhandled through the frame. -/
def mmLoopC (M : GameModel σ) (recur : ℕ → σ → Except Err ((Score × Move) × ℕ)) (s : σ) :
    List Move → ℕ → List Score → Except Err (List Score × ℕ)
  | [], c, acc => .ok (acc, c)
  | m :: rest, c, acc =>
    match recur c (M.forecast s m) with
    | .error e => .error e
    | .ok (r, c2) => mmLoopC M recur s rest c2 (acc ++ [r.1])

/-- Clock-threaded embedding of `CustomPlayer.minimax`.  `tl` is the injected
`time_left` callable, modeled as a function of the number of clock queries
made so far; `c` is that counter and each call queries the clock once at
entry, raising `Timeout` when `time_left() < self.TIMER_THRESHOLD`.  The rest
mirrors `minimaxP` with the counter threaded through the recursive loop. -/
def minimaxC (M : GameModel σ) (tl : ℕ → ℚ) (th : ℚ) (ev : σ → Score) :
    ℕ → ℕ → σ → Bool → Except Err ((Score × Move) × ℕ)
  | 0, c, s, b =>
    if tl c < th then .error .timeout
    else
      let queue := M.legalMoves s
      if queue.isEmpty then
        .ok ((if b then ((⊥ : Score), noMove) else ((⊤ : Score), noMove)), c + 1)
      else .error .index
  | 1, c, s, b =>
    if tl c < th then .error .timeout
    else
      let queue := M.legalMoves s
      if queue.isEmpty then
        .ok ((if b then ((⊥ : Score), noMove) else ((⊤ : Score), noMove)), c + 1)
      else
        match selectPair b (queue.map fun m => ev (M.forecast s m)) queue with
        | some r => .ok (r, c + 1)
        | none => .error .index
  | d + 2, c, s, b =>
    if tl c < th then .error .timeout
    else
      let queue := M.legalMoves s
      if queue.isEmpty then
        .ok ((if b then ((⊥ : Score), noMove) else ((⊤ : Score), noMove)), c + 1)
      else
        match mmLoopC M (fun c2 s2 => minimaxC M tl th ev (d + 1) c2 s2 !b) s
            queue (c + 1) [] with
        | .error e => .error e
        | .ok (scores, c2) =>
          match selectPair b scores queue with
          | some r => .ok (r, c2)
          | none => .error .index

/-- Clock-threaded maximizing alpha-beta loop (compare `abMaxLoop`). -/
def abMaxLoopC (child : Move → ℕ → Score → Except Err ((Score × Option Move) × ℕ))
    (beta : Score) (queue : List Move) :
    List Move → ℕ → Score → List Score → Except Err ((Score × Option Move) × ℕ)
  | [], c, _, scores =>
    if scores.isEmpty then .error .index
    else
      let k := loopMaxGE scores
      .ok ((scores.getD k ⊥, some (queue.getD k noMove)), c)
  | m :: rest, c, a, scores =>
    match child m c a with
    | .error e => .error e
    | .ok (r, c2) =>
      if beta ≤ r.1 then .ok ((r.1, some m), c2)
      else abMaxLoopC child beta queue rest c2 (if a < r.1 then r.1 else a)
        (scores ++ [r.1])

/-- Clock-threaded minimizing alpha-beta loop (compare `abMinLoop`). -/
def abMinLoopC (child : Move → ℕ → Score → Except Err ((Score × Option Move) × ℕ))
    (alpha : Score) (queue : List Move) :
    List Move → ℕ → Score → List Score → Except Err ((Score × Option Move) × ℕ)
  | [], c, _, scores =>
    if scores.isEmpty then .error .index
    else
      let k := loopMin scores
      .ok ((scores.getD k ⊥, some (queue.getD k noMove)), c)
  | m :: rest, c, nb, scores =>
    match child m c nb with
    | .error e => .error e
    | .ok (r, c2) =>
      if r.1 ≤ alpha then .ok ((r.1, some m), c2)
      else abMinLoopC child alpha queue rest c2 (if r.1 < nb then r.1 else nb)
        (scores ++ [r.1])

/-- Clock-threaded embedding of `CustomPlayer.alphabeta` (compare
`alphabetaP`; one clock query at entry, counter threaded through the loops). -/
def alphabetaC (M : GameModel σ) (tl : ℕ → ℚ) (th : ℚ) (ev : σ → Score) :
    ℕ → ℕ → σ → Score → Score → Bool → Except Err ((Score × Option Move) × ℕ)
  | 0, c, s, _, _, b =>
    if tl c < th then .error .timeout
    else
      let queue := M.legalMoves s
      if queue.isEmpty then .ok (emptyRes b, c + 1)
      else .ok ((ev s, none), c + 1)
  | d + 1, c, s, alpha, beta, b =>
    if tl c < th then .error .timeout
    else
      let queue := M.legalMoves s
      if queue.isEmpty then .ok (emptyRes b, c + 1)
      else if b then
        abMaxLoopC (fun m c2 a => alphabetaC M tl th ev d c2 (M.forecast s m) a beta false)
          beta queue queue (c + 1) alpha []
      else
        abMinLoopC (fun m c2 nb => alphabetaC M tl th ev d c2 (M.forecast s m) alpha nb true)
          alpha queue queue (c + 1) beta []

/-- The iterative-deepening loop of `get_move` with `method == 'minimax'`:
`depth = 1; while True: best_move = self.minimax(game, depth, True)[1]; ...`.
Exits only through the `Timeout` catch (returning the best move of the last
completed depth) or on a sentinel result; `fuel` makes the unbounded `while`
total, `none` standing for divergence within the fuel — or for an uncaught
IndexError, which the `except Timeout` of the source does not handle. -/
def idLoopMM (M : GameModel σ) (tl : ℕ → ℚ) (th : ℚ) (ev : σ → Score) (s : σ) :
    ℕ → ℕ → ℕ → Move → Option Move
  | 0, _, _, _ => none
  | fuel + 1, c, d, best =>
    match minimaxC M tl th ev d c s true with
    | .error .timeout => some best
    | .error .index => none
    | .ok ((_, mv), c2) =>
      if mv = noMove then some mv else idLoopMM M tl th ev s fuel c2 (d + 1) mv

/-- The iterative-deepening loop of `get_move` with `method == 'alphabeta'`:
`best_move = self.alphabeta(game, depth)[1]`.  Indexing `[1]` into the
depth-0 one-tuple would raise IndexError (`none` here); this is unreachable
for the depths `>= 1` the driver uses. -/
def idLoopAB (M : GameModel σ) (tl : ℕ → ℚ) (th : ℚ) (ev : σ → Score) (s : σ) :
    ℕ → ℕ → ℕ → Move → Option Move
  | 0, _, _, _ => none
  | fuel + 1, c, d, best =>
    match alphabetaC M tl th ev d c s ⊥ ⊤ true with
    | .error .timeout => some best
    | .error .index => none
    | .ok (r, c2) =>
      match r.2 with
      | none => none
      | some mv => if mv = noMove then some mv else idLoopAB M tl th ev s fuel c2 (d + 1) mv

/-- Embedding of `CustomPlayer.get_move`: return the sentinel when the state
has no legal moves; play the fixed opening `(int(width/2), int(height/2))`
when `move_count == 0`; otherwise run iterative deepening (when
`self.iterative`) or a single fixed-depth search, catching `Timeout` exactly
here and returning the recorded best move (still the sentinel on the
non-iterative path).  On the non-iterative path BOTH method selectors invoke
`self.minimax` — source line 195 calls `self.minimax` in the `'alphabeta'`
branch.  The `legal_moves` parameter of the source is unused (the code calls
`game.get_legal_moves()` itself) and is omitted. -/
def getMoveC (M : GameModel σ) (tl : ℕ → ℚ) (a : CustomPlayer σ) (s : σ)
    (fuel : ℕ) : Option Move :=
  if (M.legalMoves s).isEmpty then some noMove
  else if M.moveCount s = 0 then some (((M.width s / 2 : ℕ) : ℤ), ((M.height s / 2 : ℕ) : ℤ))
  else if a.iterative then
    match a.method with
    | Method.minimax => idLoopMM M tl a.TIMER_THRESHOLD a.evalFn s fuel 0 1 noMove
    | Method.alphabeta => idLoopAB M tl a.TIMER_THRESHOLD a.evalFn s fuel 0 1 noMove
  else
    match a.method with
    | Method.minimax =>
      match minimaxC M tl a.TIMER_THRESHOLD a.evalFn a.search_depth 0 s true with
      | .error .timeout => some noMove
      | .error .index => none
      | .ok ((_, mv), _) => some mv
    | Method.alphabeta =>
      match minimaxC M tl a.TIMER_THRESHOLD a.evalFn a.search_depth 0 s true with
      | .error .timeout => some noMove
      | .error .index => none
      | .ok ((_, mv), _) => some mv

instance {ε α : Type} [DecidableEq ε] [DecidableEq α] : DecidableEq (Except ε α) :=
  fun x y =>
    match x, y with
    | .error e1, .error e2 =>
      decidable_of_iff (e1 = e2) ⟨by rintro rfl; rfl, fun h => by injection h⟩
    | .error _, .ok _ => isFalse (by intro h; injection h)
    | .ok _, .error _ => isFalse (by intro h; injection h)
    | .ok a, .ok b =>
      decidable_of_iff (a = b) ⟨by rintro rfl; rfl, fun h => by injection h⟩

/-- The agent of the C2 scenario: fixed-depth (iterative=False), depth 2,
method 'alphabeta'; its `TIMER_THRESHOLD` is the value 8 that a construction
with `timeout=10` stores (`timeout - 2`, see claim_C9; a rational literal is
used because `Rat.sub` does not reduce definitionally). -/
def cexAgent : CustomPlayer ℕ :=
  { search_depth := 2, score := fun s _ => evC s, iterative := false,
    method := Method.alphabeta, TIMER_THRESHOLD := 8, me := 0 }

/-- The same fixed-depth agent with `method='minimax'`, for comparing the two
dispatch branches of `get_move`. -/
def cexAgentMM : CustomPlayer ℕ :=
  { search_depth := 2, score := fun s _ => evC s, iterative := false,
    method := Method.minimax, TIMER_THRESHOLD := 8, me := 0 }

/-- C2 is violated by the code: with `iterative=False` and
`method='alphabeta'`, `get_move` performs its single fixed-depth search by
calling `self.minimax` (source line 195), not the alpha-beta procedure.  On
the concrete state `0` of `CexM` at the configured depth 2 with ample time,
`get_move` returns minimax's root move `(0,0)` — the same move the
`method='minimax'` configuration returns, since both branches dispatch
`self.minimax` — while the alpha-beta procedure at the same depth selects
`(0,1)`. -/
theorem claim_C2 :
    getMoveC CexM (fun _ => 1000) cexAgent 0 0 = some (0, 0) ∧
    getMoveC CexM (fun _ => 1000) cexAgentMM 0 0
      = getMoveC CexM (fun _ => 1000) cexAgent 0 0 ∧
    minimaxP CexM cexAgent.evalFn 2 0 true = some (finScore 5, (0, 0)) ∧
    (alphabetaP CexM cexAgent.evalFn 2 0 ⊥ ⊤ true).2 = some (0, 1) ∧
    ((0, 0) : Move) ≠ ((0, 1) : Move) := by
  refine ⟨by decide, by decide, by decide, by decide, by decide⟩

/-- C4: (i) whenever the clock query at the top of a `minimax` or `alphabeta`
call returns a value below the threshold, the Timeout signal is raised;
(ii) an error raised by a recursive child propagates unhandled through the
enclosing move loop of either search (minimax's loop and both alpha-beta
loops); (iii) the iterative-deepening driver of `get_move`, for either
method, catches the Timeout and returns the move recorded by the last fully
completed depth; (iv) if the very first search of the loop times out it
returns the recorded best unchanged, so `get_move` (which enters the loop
with the sentinel recorded) returns the no-move sentinel when no depth
completed, for either method. -/
theorem claim_C4 {σ : Type} (M : GameModel σ) :
    (∀ (tl : ℕ → ℚ) (th : ℚ) (ev : σ → Score) (d c : ℕ) (s : σ) (b : Bool),
      tl c < th → minimaxC M tl th ev d c s b = .error Err.timeout) ∧
    (∀ (tl : ℕ → ℚ) (th : ℚ) (ev : σ → Score) (d c : ℕ) (s : σ)
        (alpha beta : Score) (b : Bool),
      tl c < th → alphabetaC M tl th ev d c s alpha beta b = .error Err.timeout) ∧
    (∀ (recur : ℕ → σ → Except Err ((Score × Move) × ℕ)) (s : σ) (m : Move)
        (rest : List Move) (c : ℕ) (acc : List Score) (e : Err),
      recur c (M.forecast s m) = .error e →
      mmLoopC M recur s (m :: rest) c acc = .error e) ∧
    (∀ (child : Move → ℕ → Score → Except Err ((Score × Option Move) × ℕ))
        (beta : Score) (queue : List Move) (m : Move) (rest : List Move)
        (c : ℕ) (a : Score) (scores : List Score) (e : Err),
      child m c a = .error e →
      abMaxLoopC child beta queue (m :: rest) c a scores = .error e) ∧
    (∀ (child : Move → ℕ → Score → Except Err ((Score × Option Move) × ℕ))
        (alpha : Score) (queue : List Move) (m : Move) (rest : List Move)
        (c : ℕ) (nb : Score) (scores : List Score) (e : Err),
      child m c nb = .error e →
      abMinLoopC child alpha queue (m :: rest) c nb scores = .error e) ∧
    (∀ (tl : ℕ → ℚ) (th : ℚ) (ev : σ → Score) (s : σ) (fuel c d : ℕ)
        (best : Move) (sc : Score) (mv : Move) (c2 : ℕ),
      minimaxC M tl th ev d c s true = .ok ((sc, mv), c2) → mv ≠ noMove →
      minimaxC M tl th ev (d + 1) c2 s true = .error Err.timeout →
      idLoopMM M tl th ev s (fuel + 2) c d best = some mv) ∧
    (∀ (tl : ℕ → ℚ) (th : ℚ) (ev : σ → Score) (s : σ) (fuel c d : ℕ)
        (best : Move) (sc : Score) (mv : Move) (c2 : ℕ),
      alphabetaC M tl th ev d c s ⊥ ⊤ true = .ok ((sc, some mv), c2) →
      mv ≠ noMove →
      alphabetaC M tl th ev (d + 1) c2 s ⊥ ⊤ true = .error Err.timeout →
      idLoopAB M tl th ev s (fuel + 2) c d best = some mv) ∧
    (∀ (tl : ℕ → ℚ) (th : ℚ) (ev : σ → Score) (s : σ) (fuel c d : ℕ) (best : Move),
      minimaxC M tl th ev d c s true = .error Err.timeout →
      idLoopMM M tl th ev s (fuel + 1) c d best = some best) ∧
    (∀ (tl : ℕ → ℚ) (th : ℚ) (ev : σ → Score) (s : σ) (fuel c d : ℕ) (best : Move),
      alphabetaC M tl th ev d c s ⊥ ⊤ true = .error Err.timeout →
      idLoopAB M tl th ev s (fuel + 1) c d best = some best) ∧
    (∀ (tl : ℕ → ℚ) (a : CustomPlayer σ) (s : σ) (fuel : ℕ),
      (M.legalMoves s).isEmpty = false → M.moveCount s ≠ 0 →
      a.iterative = true → a.method = Method.minimax →
      minimaxC M tl a.TIMER_THRESHOLD a.evalFn 1 0 s true = .error Err.timeout →
      getMoveC M tl a s (fuel + 1) = some noMove) ∧
    (∀ (tl : ℕ → ℚ) (a : CustomPlayer σ) (s : σ) (fuel : ℕ),
      (M.legalMoves s).isEmpty = false → M.moveCount s ≠ 0 →
      a.iterative = true → a.method = Method.alphabeta →
      alphabetaC M tl a.TIMER_THRESHOLD a.evalFn 1 0 s ⊥ ⊤ true
        = .error Err.timeout →
      getMoveC M tl a s (fuel + 1) = some noMove) := by
  have hentry : ∀ (tl : ℕ → ℚ) (th : ℚ) (ev : σ → Score) (d c : ℕ) (s : σ) (b : Bool),
      tl c < th → minimaxC M tl th ev d c s b = .error Err.timeout := by
    intro tl th ev d c s b h
    rcases d with _ | _ | n <;> simp only [minimaxC, if_pos h]
  have hloopmm : ∀ (recur : ℕ → σ → Except Err ((Score × Move) × ℕ)) (s : σ) (m : Move)
      (rest : List Move) (c : ℕ) (acc : List Score) (e : Err),
      recur c (M.forecast s m) = .error e →
      mmLoopC M recur s (m :: rest) c acc = .error e := by
    intro recur s m rest c acc e h
    simp only [mmLoopC, h]
  have hcatch : ∀ (tl : ℕ → ℚ) (th : ℚ) (ev : σ → Score) (s : σ) (fuel c d : ℕ)
      (best : Move) (sc : Score) (mv : Move) (c2 : ℕ),
      minimaxC M tl th ev d c s true = .ok ((sc, mv), c2) → mv ≠ noMove →
      minimaxC M tl th ev (d + 1) c2 s true = .error Err.timeout →
      idLoopMM M tl th ev s (fuel + 2) c d best = some mv := by
    intro tl th ev s fuel c d best sc mv c2 h1 h2 h3
    have e1 : idLoopMM M tl th ev s (fuel + 2) c d best
        = idLoopMM M tl th ev s (fuel + 1) c2 (d + 1) mv := by
      simp only [idLoopMM, h1, if_neg h2]
    have e2 : idLoopMM M tl th ev s (fuel + 1) c2 (d + 1) mv = some mv := by
      simp only [idLoopMM, h3]
    rw [e1, e2]
  have hcatchAB : ∀ (tl : ℕ → ℚ) (th : ℚ) (ev : σ → Score) (s : σ) (fuel c d : ℕ)
      (best : Move) (sc : Score) (mv : Move) (c2 : ℕ),
      alphabetaC M tl th ev d c s ⊥ ⊤ true = .ok ((sc, some mv), c2) →
      mv ≠ noMove →
      alphabetaC M tl th ev (d + 1) c2 s ⊥ ⊤ true = .error Err.timeout →
      idLoopAB M tl th ev s (fuel + 2) c d best = some mv := by
    intro tl th ev s fuel c d best sc mv c2 h1 h2 h3
    have e1 : idLoopAB M tl th ev s (fuel + 2) c d best
        = idLoopAB M tl th ev s (fuel + 1) c2 (d + 1) mv := by
      simp only [idLoopAB, h1, if_neg h2]
    have e2 : idLoopAB M tl th ev s (fuel + 1) c2 (d + 1) mv = some mv := by
      simp only [idLoopAB, h3]
    rw [e1, e2]
  have hfirst : ∀ (tl : ℕ → ℚ) (th : ℚ) (ev : σ → Score) (s : σ) (fuel c d : ℕ)
      (best : Move),
      minimaxC M tl th ev d c s true = .error Err.timeout →
      idLoopMM M tl th ev s (fuel + 1) c d best = some best := by
    intro tl th ev s fuel c d best h
    simp only [idLoopMM, h]
  have hfirstAB : ∀ (tl : ℕ → ℚ) (th : ℚ) (ev : σ → Score) (s : σ) (fuel c d : ℕ)
      (best : Move),
      alphabetaC M tl th ev d c s ⊥ ⊤ true = .error Err.timeout →
      idLoopAB M tl th ev s (fuel + 1) c d best = some best := by
    intro tl th ev s fuel c d best h
    simp only [idLoopAB, h]
  refine ⟨hentry, ?_, hloopmm, ?_, ?_, hcatch, hcatchAB, hfirst, hfirstAB, ?_, ?_⟩
  · intro tl th ev d c s alpha beta b h
    rcases d with _ | n <;> simp only [alphabetaC, if_pos h]
  · intro child beta queue m rest c a scores e h
    simp only [abMaxLoopC, h]
  · intro child alpha queue m rest c nb scores e h
    simp only [abMinLoopC, h]
  · intro tl a s fuel hleg hmc hit hmth htmo
    have e1 : getMoveC M tl a s (fuel + 1)
        = idLoopMM M tl a.TIMER_THRESHOLD a.evalFn s (fuel + 1) 0 1 noMove := by
      simp only [getMoveC, hleg, Bool.false_eq_true, if_false, if_neg hmc, hit,
        if_true, hmth]
    rw [e1]
    exact hfirst tl a.TIMER_THRESHOLD a.evalFn s fuel 0 1 noMove htmo
  · intro tl a s fuel hleg hmc hit hmth htmo
    have e1 : getMoveC M tl a s (fuel + 1)
        = idLoopAB M tl a.TIMER_THRESHOLD a.evalFn s (fuel + 1) 0 1 noMove := by
      simp only [getMoveC, hleg, Bool.false_eq_true, if_false, if_neg hmc, hit,
        if_true, hmth]
    rw [e1]
    exact hfirstAB tl a.TIMER_THRESHOLD a.evalFn s fuel 0 1 noMove htmo

/-- An iterative minimax agent with the threshold of a `timeout=10`
construction, used to witness the driver behavior. -/
def cexAgentIt : CustomPlayer ℕ :=
  { search_depth := 3, score := fun s _ => evC s, iterative := true,
    method := Method.minimax, TIMER_THRESHOLD := 8, me := 0 }

/-- The same iterative agent with `method='alphabeta'`. -/
def cexAgentItAB : CustomPlayer ℕ :=
  { search_depth := 3, score := fun s _ => evC s, iterative := true,
    method := Method.alphabeta, TIMER_THRESHOLD := 8, me := 0 }

theorem claim_C4_witness :
    minimaxC CexM (fun n => if n = 0 then (10 : ℚ) else 0) 8 evC 1 1 0 true
      = .error Err.timeout ∧
    alphabetaC CexM (fun n => if n = 0 then (10 : ℚ) else 0) 8 evC 1 1 0 ⊥ ⊤ true
      = .error Err.timeout ∧
    mmLoopC CexM (fun _ _ => .error Err.index) 0 [(0, 0)] 0 [] = .error Err.index ∧
    abMaxLoopC (fun _ _ _ => .error Err.timeout) ⊤ [(0, 0)] [(0, 0)] 0 ⊥ []
      = .error Err.timeout ∧
    abMinLoopC (fun _ _ _ => .error Err.timeout) ⊥ [(0, 0)] [(0, 0)] 0 ⊤ []
      = .error Err.timeout ∧
    idLoopMM CexM (fun n => if n = 0 then (10 : ℚ) else 0) 8 evC 0 2 0 1 noMove
      = some (0, 0) ∧
    idLoopAB CexM (fun n => if n < 3 then (10 : ℚ) else 0) 8 evC 0 2 0 1 noMove
      = some (0, 1) ∧
    idLoopMM CexM (fun n => if n = 0 then (10 : ℚ) else 0) 8 evC 0 1 1 1 (9, 9)
      = some (9, 9) ∧
    idLoopAB CexM (fun n => if n < 3 then (10 : ℚ) else 0) 8 evC 0 1 3 1 (9, 9)
      = some (9, 9) ∧
    getMoveC CexM (fun _ => 0) cexAgentIt 0 1 = some noMove ∧
    getMoveC CexM (fun _ => 0) cexAgentItAB 0 1 = some noMove := by
  obtain ⟨h1, h2, h3, h4, h5, h6, h7, h8, h9, h10, h11⟩ := claim_C4 CexM
  exact ⟨h1 _ 8 evC 1 1 0 true (by decide),
    h2 _ 8 evC 1 1 0 ⊥ ⊤ true (by decide),
    h3 _ 0 (0, 0) [] 0 [] Err.index rfl,
    h4 _ ⊤ [(0, 0)] (0, 0) [] 0 ⊥ [] Err.timeout rfl,
    h5 _ ⊥ [(0, 0)] (0, 0) [] 0 ⊤ [] Err.timeout rfl,
    h6 _ 8 evC 0 0 0 1 noMove (finScore 0) (0, 0) 1 (by decide) (by decide) (by decide),
    h7 _ 8 evC 0 0 0 1 noMove (finScore 0) (0, 1) 3 (by decide) (by decide) (by decide),
    h8 _ 8 evC 0 0 1 1 (9, 9) (by decide),
    h9 _ 8 evC 0 0 3 1 (9, 9) (by decide),
    h10 _ cexAgentIt 0 0 (by decide) (by decide) rfl rfl (by decide),
    h11 _ cexAgentItAB 0 0 (by decide) (by decide) rfl rfl (by decide)⟩

theorem minimaxC_trip {M : GameModel σ} {tl : ℕ → ℚ} {th : ℚ} {ev : σ → Score}
    {d c : ℕ} {s : σ} {b : Bool} (h : tl c < th) :
    minimaxC M tl th ev d c s b = .error Err.timeout := by
  rcases d with _ | _ | n <;> simp only [minimaxC, if_pos h]

theorem alphabetaC_trip {M : GameModel σ} {tl : ℕ → ℚ} {th : ℚ} {ev : σ → Score}
    {d c : ℕ} {s : σ} {alpha beta : Score} {b : Bool} (h : tl c < th) :
    alphabetaC M tl th ev d c s alpha beta b = .error Err.timeout := by
  rcases d with _ | n <;> simp only [alphabetaC, if_pos h]

theorem mmLoopC_no_timeout {M : GameModel σ}
    {recur : ℕ → σ → Except Err ((Score × Move) × ℕ)} {s : σ}
    (hrec : ∀ (c2 : ℕ) (s2 : σ), recur c2 s2 ≠ .error Err.timeout) :
    ∀ (rest : List Move) (c : ℕ) (acc : List Score),
      mmLoopC M recur s rest c acc ≠ .error Err.timeout := by
  intro rest
  induction rest with
  | nil =>
    intro c acc h
    exact Except.noConfusion h
  | cons m rest ih =>
    intro c acc
    cases hr : recur c (M.forecast s m) with
    | error e =>
      cases e with
      | timeout => exact absurd hr (hrec c (M.forecast s m))
      | index =>
        intro h
        rw [show mmLoopC M recur s (m :: rest) c acc = .error Err.index by
          simp only [mmLoopC, hr]] at h
        exact absurd (Except.error.inj h) (by decide)
    | ok rc =>
      intro h
      rw [show mmLoopC M recur s (m :: rest) c acc
          = mmLoopC M recur s rest rc.2 (acc ++ [rc.1.1]) by
        simp only [mmLoopC, hr]] at h
      exact ih rc.2 (acc ++ [rc.1.1]) h

theorem minimaxC_no_timeout {M : GameModel σ} {tl : ℕ → ℚ} {th : ℚ} {ev : σ → Score}
    (htl : ∀ n, ¬ tl n < th) :
    ∀ (d c : ℕ) (s : σ) (b : Bool), minimaxC M tl th ev d c s b ≠ .error Err.timeout := by
  intro d
  induction d using Nat.strong_induction_on with
  | _ d IH =>
    rcases d with _ | _ | n
    · intro c s b
      have he : minimaxC M tl th ev 0 c s b
          = (if (M.legalMoves s).isEmpty then
              .ok ((if b then ((⊥ : Score), noMove) else ((⊤ : Score), noMove)), c + 1)
            else .error Err.index) := by
        simp only [minimaxC, if_neg (htl c)]
      rw [he]
      by_cases hq : (M.legalMoves s).isEmpty
      · rw [if_pos hq]; intro h; exact Except.noConfusion h
      · rw [if_neg hq]; intro h; exact absurd (Except.error.inj h) (by decide)
    · intro c s b
      have he : minimaxC M tl th ev 1 c s b
          = (if (M.legalMoves s).isEmpty then
              .ok ((if b then ((⊥ : Score), noMove) else ((⊤ : Score), noMove)), c + 1)
            else
              match selectPair b ((M.legalMoves s).map fun m => ev (M.forecast s m))
                  (M.legalMoves s) with
              | some r => .ok (r, c + 1)
              | none => .error Err.index) := by
        simp only [minimaxC, if_neg (htl c)]
      rw [he]
      by_cases hq : (M.legalMoves s).isEmpty
      · rw [if_pos hq]; intro h; exact Except.noConfusion h
      · rw [if_neg hq]
        cases hsel : selectPair b ((M.legalMoves s).map fun m => ev (M.forecast s m))
            (M.legalMoves s) with
        | none => intro h; exact absurd (Except.error.inj h) (by decide)
        | some r => intro h; exact Except.noConfusion h
    · intro c s b
      have he : minimaxC M tl th ev (n + 2) c s b
          = (if (M.legalMoves s).isEmpty then
              .ok ((if b then ((⊥ : Score), noMove) else ((⊤ : Score), noMove)), c + 1)
            else
              match mmLoopC M (fun c2 s2 => minimaxC M tl th ev (n + 1) c2 s2 !b) s
                  (M.legalMoves s) (c + 1) [] with
              | .error e => .error e
              | .ok (scores, c2) =>
                match selectPair b scores (M.legalMoves s) with
                | some r => .ok (r, c2)
                | none => .error Err.index) := by
        simp only [minimaxC, if_neg (htl c)]
      rw [he]
      by_cases hq : (M.legalMoves s).isEmpty
      · rw [if_pos hq]; intro h; exact Except.noConfusion h
      · rw [if_neg hq]
        have hloop := @mmLoopC_no_timeout σ M
          (fun c2 s2 => minimaxC M tl th ev (n + 1) c2 s2 !b) s
          (fun c2 s2 => IH (n + 1) (by omega) c2 s2 !b)
        cases hres : mmLoopC M (fun c2 s2 => minimaxC M tl th ev (n + 1) c2 s2 !b) s
            (M.legalMoves s) (c + 1) [] with
        | error e =>
          cases e with
          | timeout => exact absurd hres (hloop (M.legalMoves s) (c + 1) [])
          | index => intro h; exact absurd (Except.error.inj h) (by decide)
        | ok rc =>
          obtain ⟨scores, c2⟩ := rc
          show (match selectPair b scores (M.legalMoves s) with
              | some r => (Except.ok (r, c2) : Except Err ((Score × Move) × ℕ))
              | none => Except.error Err.index) ≠ Except.error Err.timeout
          cases hsel : selectPair b scores (M.legalMoves s) with
          | none => intro h; exact absurd (Except.error.inj h) (by decide)
          | some r => intro h; exact Except.noConfusion h

theorem abMaxLoopC_no_timeout
    {child : Move → ℕ → Score → Except Err ((Score × Option Move) × ℕ)}
    {beta : Score} {queue : List Move}
    (hchild : ∀ m c a, child m c a ≠ .error Err.timeout) :
    ∀ (rest : List Move) (c : ℕ) (a : Score) (scores : List Score),
      abMaxLoopC child beta queue rest c a scores ≠ .error Err.timeout := by
  intro rest
  induction rest with
  | nil =>
    intro c a scores
    by_cases hs : scores.isEmpty
    · intro h
      rw [show abMaxLoopC child beta queue [] c a scores = .error Err.index by
        simp only [abMaxLoopC, if_pos hs]] at h
      exact absurd (Except.error.inj h) (by decide)
    · intro h
      rw [show abMaxLoopC child beta queue [] c a scores
          = .ok ((scores.getD (loopMaxGE scores) ⊥,
              some (queue.getD (loopMaxGE scores) noMove)), c) by
        simp only [abMaxLoopC, if_neg hs]] at h
      exact Except.noConfusion h
  | cons m rest ih =>
    intro c a scores
    cases hc : child m c a with
    | error e =>
      cases e with
      | timeout => exact absurd hc (hchild m c a)
      | index =>
        intro h
        rw [show abMaxLoopC child beta queue (m :: rest) c a scores = .error Err.index by
          simp only [abMaxLoopC, hc]] at h
        exact absurd (Except.error.inj h) (by decide)
    | ok rc =>
      by_cases hcut : beta ≤ rc.1.1
      · intro h
        rw [show abMaxLoopC child beta queue (m :: rest) c a scores
            = .ok ((rc.1.1, some m), rc.2) by
          simp only [abMaxLoopC, hc, if_pos hcut]] at h
        exact Except.noConfusion h
      · intro h
        rw [show abMaxLoopC child beta queue (m :: rest) c a scores
            = abMaxLoopC child beta queue rest rc.2
                (if a < rc.1.1 then rc.1.1 else a) (scores ++ [rc.1.1]) by
          simp only [abMaxLoopC, hc, if_neg hcut]] at h
        exact ih rc.2 (if a < rc.1.1 then rc.1.1 else a) (scores ++ [rc.1.1]) h

theorem abMinLoopC_no_timeout
    {child : Move → ℕ → Score → Except Err ((Score × Option Move) × ℕ)}
    {alpha : Score} {queue : List Move}
    (hchild : ∀ m c nb, child m c nb ≠ .error Err.timeout) :
    ∀ (rest : List Move) (c : ℕ) (nb : Score) (scores : List Score),
      abMinLoopC child alpha queue rest c nb scores ≠ .error Err.timeout := by
  intro rest
  induction rest with
  | nil =>
    intro c nb scores
    by_cases hs : scores.isEmpty
    · intro h
      rw [show abMinLoopC child alpha queue [] c nb scores = .error Err.index by
        simp only [abMinLoopC, if_pos hs]] at h
      exact absurd (Except.error.inj h) (by decide)
    · intro h
      rw [show abMinLoopC child alpha queue [] c nb scores
          = .ok ((scores.getD (loopMin scores) ⊥,
              some (queue.getD (loopMin scores) noMove)), c) by
        simp only [abMinLoopC, if_neg hs]] at h
      exact Except.noConfusion h
  | cons m rest ih =>
    intro c nb scores
    cases hc : child m c nb with
    | error e =>
      cases e with
      | timeout => exact absurd hc (hchild m c nb)
      | index =>
        intro h
        rw [show abMinLoopC child alpha queue (m :: rest) c nb scores = .error Err.index by
          simp only [abMinLoopC, hc]] at h
        exact absurd (Except.error.inj h) (by decide)
    | ok rc =>
      by_cases hcut : rc.1.1 ≤ alpha
      · intro h
        rw [show abMinLoopC child alpha queue (m :: rest) c nb scores
            = .ok ((rc.1.1, some m), rc.2) by
          simp only [abMinLoopC, hc, if_pos hcut]] at h
        exact Except.noConfusion h
      · intro h
        rw [show abMinLoopC child alpha queue (m :: rest) c nb scores
            = abMinLoopC child alpha queue rest rc.2
                (if rc.1.1 < nb then rc.1.1 else nb) (scores ++ [rc.1.1]) by
          simp only [abMinLoopC, hc, if_neg hcut]] at h
        exact ih rc.2 (if rc.1.1 < nb then rc.1.1 else nb) (scores ++ [rc.1.1]) h

theorem alphabetaC_no_timeout {M : GameModel σ} {tl : ℕ → ℚ} {th : ℚ} {ev : σ → Score}
    (htl : ∀ n, ¬ tl n < th) :
    ∀ (d c : ℕ) (s : σ) (alpha beta : Score) (b : Bool),
      alphabetaC M tl th ev d c s alpha beta b ≠ .error Err.timeout := by
  intro d
  induction d with
  | zero =>
    intro c s alpha beta b
    have he : alphabetaC M tl th ev 0 c s alpha beta b
        = (if (M.legalMoves s).isEmpty then .ok (emptyRes b, c + 1)
          else .ok ((ev s, none), c + 1)) := by
      simp only [alphabetaC, if_neg (htl c)]
    rw [he]
    by_cases hq : (M.legalMoves s).isEmpty
    · rw [if_pos hq]; intro h; exact Except.noConfusion h
    · rw [if_neg hq]; intro h; exact Except.noConfusion h
  | succ n ih =>
    intro c s alpha beta b
    have he : alphabetaC M tl th ev (n + 1) c s alpha beta b
        = (if (M.legalMoves s).isEmpty then .ok (emptyRes b, c + 1)
          else if b then
            abMaxLoopC (fun m c2 a =>
                alphabetaC M tl th ev n c2 (M.forecast s m) a beta false)
              beta (M.legalMoves s) (M.legalMoves s) (c + 1) alpha []
          else
            abMinLoopC (fun m c2 nb =>
                alphabetaC M tl th ev n c2 (M.forecast s m) alpha nb true)
              alpha (M.legalMoves s) (M.legalMoves s) (c + 1) beta []) := by
      simp only [alphabetaC, if_neg (htl c)]
    rw [he]
    by_cases hq : (M.legalMoves s).isEmpty
    · rw [if_pos hq]; intro h; exact Except.noConfusion h
    · rw [if_neg hq]
      cases b
      · simp only [Bool.false_eq_true, if_false]
        exact abMinLoopC_no_timeout (fun m c2 nb => ih c2 (M.forecast s m) alpha nb true)
          (M.legalMoves s) (c + 1) beta []
      · simp only [if_true]
        exact abMaxLoopC_no_timeout (fun m c2 a => ih c2 (M.forecast s m) a beta false)
          (M.legalMoves s) (c + 1) alpha []

/-- C9: the constructor stores `TIMER_THRESHOLD = timeout - 2`; at the top of
every search call the Timeout signal is raised exactly when the injected
clock's remaining time is strictly below `timeout - 2` — when the reading is
below `timeout - 2` the call raises immediately, and when no clock reading is
ever below `timeout - 2` no Timeout is raised anywhere in the search. -/
theorem claim_C9 {σ : Type} (M : GameModel σ) (sd : ℕ) (scf : σ → Player → Score)
    (it : Bool) (mth : Method) (t : ℚ) (me : Player) :
    (mkPlayer sd scf it mth t me : CustomPlayer σ).TIMER_THRESHOLD = t - 2 ∧
    (∀ (tl : ℕ → ℚ) (ev : σ → Score) (d c : ℕ) (s : σ) (b : Bool) (alpha beta : Score),
      tl c < t - 2 →
      minimaxC M tl (t - 2) ev d c s b = .error Err.timeout ∧
      alphabetaC M tl (t - 2) ev d c s alpha beta b = .error Err.timeout) ∧
    (∀ (tl : ℕ → ℚ) (ev : σ → Score) (d c : ℕ) (s : σ) (b : Bool) (alpha beta : Score),
      (∀ n, ¬ tl n < t - 2) →
      minimaxC M tl (t - 2) ev d c s b ≠ .error Err.timeout ∧
      alphabetaC M tl (t - 2) ev d c s alpha beta b ≠ .error Err.timeout) := by
  refine ⟨rfl, ?_, ?_⟩
  · intro tl ev d c s b alpha beta h
    exact ⟨minimaxC_trip h, alphabetaC_trip h⟩
  · intro tl ev d c s b alpha beta h
    exact ⟨minimaxC_no_timeout h d c s b, alphabetaC_no_timeout h d c s alpha beta b⟩

theorem claim_C9_witness :
    (mkPlayer 3 (fun s _ => evC s) true Method.minimax 10 0 : CustomPlayer ℕ).TIMER_THRESHOLD
      = 10 - 2 ∧
    (minimaxC CexM (fun _ => 0) (10 - 2) evC 1 0 0 true = .error Err.timeout ∧
     alphabetaC CexM (fun _ => 0) (10 - 2) evC 1 0 0 ⊥ ⊤ true = .error Err.timeout) ∧
    (minimaxC CexM (fun _ => 1000) (10 - 2) evC 1 0 0 true ≠ .error Err.timeout ∧
     alphabetaC CexM (fun _ => 1000) (10 - 2) evC 1 0 0 ⊥ ⊤ true ≠ .error Err.timeout) := by
  obtain ⟨hthr, htrip, hnot⟩ := claim_C9 CexM 3 (fun s _ => evC s) true Method.minimax 10 0
  exact ⟨hthr, htrip (fun _ => 0) evC 1 0 0 true ⊥ ⊤ (by norm_num),
    hnot (fun _ => 1000) evC 1 0 0 true ⊥ ⊤ (fun n => by norm_num)⟩

/-- C3 is contradicted by the code: at `depth == 0` with at least one legal
move, `alphabeta` executes `return self.score(game, self),` — a one-element
tuple carrying only the Evaluator's score, with no move slot at all — rather
than the pair (score, (-1,-1)) promised by the claim and by the function's
own docstring. -/
theorem claim_C3 {σ : Type} (M : GameModel σ) (ev : σ → Score) (s : σ)
    (alpha beta : Score) (b : Bool) (hq : M.legalMoves s ≠ []) :
    alphabetaP M ev 0 s alpha beta b = (ev s, none) ∧
    (alphabetaP M ev 0 s alpha beta b).2 ≠ some noMove := by
  have hqe : ¬(M.legalMoves s).isEmpty := fun h => hq (List.isEmpty_iff.mp h)
  have h1 : alphabetaP M ev 0 s alpha beta b = (ev s, none) := by
    simp only [alphabetaP, if_neg hqe]
  refine ⟨h1, ?_⟩
  rw [h1]
  simp

theorem claim_C3_witness :
    alphabetaP CexM evC 0 0 ⊥ ⊤ true = (evC 0, none) ∧
    (alphabetaP CexM evC 0 0 ⊥ ⊤ true).2 ≠ some noMove :=
  claim_C3 CexM evC 0 ⊥ ⊤ true (by decide)

/-- Embedding of `custom_score` (game_agent.py): `-inf` if the player is the
loser, `+inf` if the winner; otherwise the legal-move-count difference,
penalized 1.5 per overlap between the players' move sets, and adjusted 0.8 by
the distance/board-fill heuristic.  The source compares
`math.sqrt(dx**2 + dy**2)` against `width / 3`; both sides are nonnegative,
so the comparisons are embedded with both sides squared. -/
def custom_score (M : GameModel σ) (s : σ) (p : Player) : Score :=
  if M.isLoser s p then ⊥
  else if M.isWinner s p then ⊤
  else
    let player_moves := M.legalMovesOf s p
    let opponent_moves := M.legalMovesOf s (M.opponent s p)
    let move_value : ℚ := ((player_moves.length : ℚ) - (opponent_moves.length : ℚ))
    let move_value := player_moves.foldl
      (fun acc mv => if mv ∈ opponent_moves then acc - 1.5 else acc) move_value
    let player_pos := M.location s p
    let opponent_pos := M.location s (M.opponent s p)
    let num_blank : ℚ := ((M.blanks s).length : ℚ)
    let total_spaces : ℚ := (M.width s : ℚ) * (M.height s : ℚ)
    let dist_sq : ℚ := ((player_pos.1 - opponent_pos.1 : ℤ) : ℚ) ^ 2
      + ((player_pos.2 - opponent_pos.2 : ℤ) : ℚ) ^ 2
    let w3 : ℚ := (M.width s : ℚ) / 3
    let move_value :=
      if dist_sq < w3 ^ 2 ∧ num_blank > total_spaces / 3 then move_value - 0.8
      else if dist_sq > w3 ^ 2 ∧ num_blank < total_spaces / 3 then move_value + 0.8
      else move_value
    finScore move_value

/-- Embedding of `custom_score_1` (heuristics.py): terminal checks, then the
move-count difference with a 0.5 penalty per overlapping move. -/
def custom_score_1 (M : GameModel σ) (s : σ) (p : Player) : Score :=
  if M.isLoser s p then ⊥
  else if M.isWinner s p then ⊤
  else
    let player_moves := M.legalMovesOf s p
    let opponent_moves := M.legalMovesOf s (M.opponent s p)
    let own_moves_value : ℚ := (player_moves.length : ℚ)
    let opp_moves_value : ℚ := (opponent_moves.length : ℚ)
    let own_moves_value := player_moves.foldl
      (fun acc mv => if mv ∈ opponent_moves then acc - 0.5 else acc) own_moves_value
    finScore (own_moves_value - opp_moves_value)

/-- Embedding of `custom_score_2` (heuristics.py) — its body is a literal
duplicate of `custom_score` in game_agent.py. -/
def custom_score_2 (M : GameModel σ) (s : σ) (p : Player) : Score :=
  if M.isLoser s p then ⊥
  else if M.isWinner s p then ⊤
  else
    let player_moves := M.legalMovesOf s p
    let opponent_moves := M.legalMovesOf s (M.opponent s p)
    let move_value : ℚ := ((player_moves.length : ℚ) - (opponent_moves.length : ℚ))
    let move_value := player_moves.foldl
      (fun acc mv => if mv ∈ opponent_moves then acc - 1.5 else acc) move_value
    let player_pos := M.location s p
    let opponent_pos := M.location s (M.opponent s p)
    let num_blank : ℚ := ((M.blanks s).length : ℚ)
    let total_spaces : ℚ := (M.width s : ℚ) * (M.height s : ℚ)
    let dist_sq : ℚ := ((player_pos.1 - opponent_pos.1 : ℤ) : ℚ) ^ 2
      + ((player_pos.2 - opponent_pos.2 : ℤ) : ℚ) ^ 2
    let w3 : ℚ := (M.width s : ℚ) / 3
    let move_value :=
      if dist_sq < w3 ^ 2 ∧ num_blank > total_spaces / 3 then move_value - 0.8
      else if dist_sq > w3 ^ 2 ∧ num_blank < total_spaces / 3 then move_value + 0.8
      else move_value
    finScore move_value

/-- Embedding of `custom_score_3` (heuristics.py): terminal checks, the
move-count difference, and a penalty when all moves of both players overlap
(`num_blank` is computed from `move_count` but never used afterwards, kept
as a dead binding). -/
def custom_score_3 (M : GameModel σ) (s : σ) (p : Player) : Score :=
  if M.isLoser s p then ⊥
  else if M.isWinner s p then ⊤
  else
    let player_moves := M.legalMovesOf s p
    let opponent_moves := M.legalMovesOf s (M.opponent s p)
    let own_moves_value : ℕ := player_moves.length
    let opp_moves_value : ℕ := opponent_moves.length
    let move_value : ℚ := ((own_moves_value : ℚ) - (opp_moves_value : ℚ))
    let total_spaces : ℕ := M.width s * M.height s
    let _num_blank : ℤ := (total_spaces : ℤ) - (M.moveCount s : ℤ)
    let num_repeats : ℕ := player_moves.foldl
      (fun n mv => if mv ∈ opponent_moves then n + 1 else n) 0
    if opp_moves_value = num_repeats ∧ own_moves_value = num_repeats then
      if num_repeats = 1 then finScore (move_value - 5)
      else finScore (move_value - 0.4)
    else finScore move_value

/-- C8: every Evaluator variant returns exactly `-inf` whenever the given
player is the loser and exactly `+inf` whenever the player is the winner
(under the documented mutual exclusivity of the terminal predicates — the
loser check runs first in each function); the statement quantifies over all
remaining board capabilities, so the terminal checks do not depend on any
other computation. -/
theorem claim_C8 {σ : Type} (M : GameModel σ) (s : σ) (p : Player) :
    (M.isLoser s p = true →
      custom_score M s p = ⊥ ∧ custom_score_1 M s p = ⊥ ∧
      custom_score_2 M s p = ⊥ ∧ custom_score_3 M s p = ⊥) ∧
    (M.isWinner s p = true → M.isLoser s p = false →
      custom_score M s p = ⊤ ∧ custom_score_1 M s p = ⊤ ∧
      custom_score_2 M s p = ⊤ ∧ custom_score_3 M s p = ⊤) := by
  constructor
  · intro h
    refine ⟨?_, ?_, ?_, ?_⟩ <;>
      simp only [custom_score, custom_score_1, custom_score_2, custom_score_3, h, if_true]
  · intro hw hl
    refine ⟨?_, ?_, ?_, ?_⟩ <;>
      simp only [custom_score, custom_score_1, custom_score_2, custom_score_3, hw, hl,
        Bool.false_eq_true, if_false, if_true]

/-- A concrete board where state 1 is lost and state 2 is won for player 0. -/
def WitM : GameModel ℕ :=
  { active := fun _ => 0, legalMovesOf := fun _ _ => [], forecast := fun s _ => s + 1,
    isLoser := fun s _ => decide (s = 1), isWinner := fun s _ => decide (s = 2),
    opponent := fun _ p => 1 - p, location := fun _ _ => (0, 0),
    blanks := fun _ => [], width := fun _ => 7, height := fun _ => 7,
    moveCount := fun _ => 0 }

theorem claim_C8_witness :
    (custom_score WitM 1 0 = ⊥ ∧ custom_score_1 WitM 1 0 = ⊥ ∧
     custom_score_2 WitM 1 0 = ⊥ ∧ custom_score_3 WitM 1 0 = ⊥) ∧
    (custom_score WitM 2 0 = ⊤ ∧ custom_score_1 WitM 2 0 = ⊤ ∧
     custom_score_2 WitM 2 0 = ⊤ ∧ custom_score_3 WitM 2 0 = ⊤) :=
  ⟨(claim_C8 WitM 1 0).1 (by decide), (claim_C8 WitM 2 0).2 (by decide) (by decide)⟩
